import Mathlib

/-
  Verification of the answer-equivalence core of the dailyintegral repository
  (app/utils.py): the equivalence-up-to-constant checker, the LaTeX
  sanitizer/normalizer, and the canonical renderer.

  The symbolic-math engine (sympy) is an external capability the code
  integrates; it is modelled here by an abstract structure `CAS` of the
  operations the code calls (fallible ones return `Option`, `none`
  standing for a raised exception), together with a concrete executable
  instance built on a multivariate-polynomial normal form, used for
  witnesses and for the claims that quantify over expressions.

  Symbols are modelled as natural numbers; the reserved constant of
  integration `C` is symbol 0.
-/

namespace DailyIntegral

/-- The reserved symbol C (constant of integration), sympy `Symbol('C')`. -/
def constC : Nat := 0

/-- The expression language: the fragment of sympy expression trees the
checker manipulates (numbers, symbols, sums, products). -/
inductive Ex where
  | num (k : Int)
  | sym (s : Nat)
  | add (a b : Ex)
  | mul (a b : Ex)
deriving DecidableEq, Repr

/-- Syntactic free symbols of an expression, sympy `expr.free_symbols`. -/
def fsEx : Ex → Finset Nat
  | .num _ => ∅
  | .sym s => {s}
  | .add a b => fsEx a ∪ fsEx b
  | .mul a b => fsEx a ∪ fsEx b

/-- Structural derivative with respect to symbol `v`, sympy `diff`. -/
def exDiff (v : Nat) : Ex → Ex
  | .num _ => .num 0
  | .sym s => if s = v then .num 1 else .num 0
  | .add a b => .add (exDiff v a) (exDiff v b)
  | .mul a b => .add (.mul (exDiff v a) b) (.mul a (exDiff v b))

/- ### Multivariate polynomials: the normal form behind the model's
   `simplify`. A monomial is a sorted list of (variable, exponent) pairs;
   a polynomial is a list of (coefficient, monomial) terms kept merged by
   a total order on monomials. -/

/-- A monomial: variable/exponent pairs. -/
def Monomial := List (Nat × Nat)
deriving DecidableEq

/-- A polynomial: coefficient/monomial terms. -/
def Poly := List (Int × Monomial)
deriving DecidableEq

/-- Total-order comparison on naturals, spelled out so its case laws are
directly provable. -/
def cmpN (a b : Nat) : Ordering :=
  if a < b then .lt else if b < a then .gt else .eq

/-- Lexicographic comparison of monomials. -/
def cmpM : Monomial → Monomial → Ordering
  | [], [] => .eq
  | [], _ :: _ => .lt
  | _ :: _, [] => .gt
  | (v1, e1) :: m1, (v2, e2) :: m2 =>
    match cmpN v1 v2 with
    | .lt => .lt
    | .gt => .gt
    | .eq =>
      match cmpN e1 e2 with
      | .lt => .lt
      | .gt => .gt
      | .eq => cmpM m1 m2

/-- Inner loop of merge-addition: the first summand is fixed at
`(c1, m1) :: p1` and `f` adds `p1` to a polynomial (the recursive call on
the structurally smaller first list). -/
def pAddGo (c1 : Int) (m1 : Monomial) (p1 : Poly) (f : Poly → Poly) : Poly → Poly
  | [] => (c1, m1) :: p1
  | (c2, m2) :: p2 =>
    match cmpM m1 m2 with
    | .lt => (c1, m1) :: f ((c2, m2) :: p2)
    | .gt => (c2, m2) :: pAddGo c1 m1 p1 f p2
    | .eq =>
      if c1 + c2 = 0 then f p2 else (c1 + c2, m1) :: f p2

/-- Merge-addition of polynomials (structural recursion, so that it
computes inside the kernel). -/
def pAdd : Poly → Poly → Poly
  | [], q => q
  | (c1, m1) :: p1, q => pAddGo c1 m1 p1 (pAdd p1) q

/-- Negation of a polynomial. -/
def pNeg (p : Poly) : Poly := p.map (fun t => (-t.1, t.2))

/-- Inner loop of monomial merge-multiplication, in the same style as
`pAddGo`. -/
def mMulGo (v1 e1 : Nat) (m1 : Monomial) (f : Monomial → Monomial) : Monomial → Monomial
  | [] => (v1, e1) :: m1
  | (v2, e2) :: m2 =>
    match cmpN v1 v2 with
    | .lt => (v1, e1) :: f ((v2, e2) :: m2)
    | .gt => (v2, e2) :: mMulGo v1 e1 m1 f m2
    | .eq => (v1, e1 + e2) :: f m2

/-- Merge-multiplication of monomials (adds exponents of shared
variables). -/
def mMul : Monomial → Monomial → Monomial
  | [], n => n
  | (v1, e1) :: m1, n => mMulGo v1 e1 m1 (mMul m1) n

/-- Multiply a single term into a polynomial. -/
def tMul (c : Int) (m : Monomial) (q : Poly) : Poly :=
  q.map (fun t => (c * t.1, mMul m t.2))

/-- Polynomial multiplication. -/
def pMul (p q : Poly) : Poly :=
  p.foldr (fun t acc => pAdd (tMul t.1 t.2 q) acc) []

/-- Polynomial of an expression. -/
def pOfEx : Ex → Poly
  | .num k => if k = 0 then [] else [(k, [])]
  | .sym s => [(1, [(s, 1)])]
  | .add a b => pAdd (pOfEx a) (pOfEx b)
  | .mul a b => pMul (pOfEx a) (pOfEx b)

/-- Power of a symbol as an expression (exponent at least 1 in use). -/
def symPow (v : Nat) : Nat → Ex
  | 0 => .num 1
  | 1 => .sym v
  | e + 2 => .mul (.sym v) (symPow v (e + 1))

/-- Monomial rendered back as an expression; never a `num` node for a
nonempty monomial. -/
def mEx : Monomial → Ex
  | [] => .num 1
  | [(v, e)] => symPow v e
  | (v, e) :: t :: m => .mul (symPow v e) (mEx (t :: m))

/-- One term rendered back as an expression. -/
def tEx : Int × Monomial → Ex
  | (c, []) => .num c
  | (c, (v, e) :: m) =>
    if c = 1 then mEx ((v, e) :: m) else .mul (.num c) (mEx ((v, e) :: m))

/-- Polynomial rendered back as an expression (canonical form). -/
def pToEx : Poly → Ex
  | [] => .num 0
  | [t] => tEx t
  | t :: t2 :: p => .add (tEx t) (pToEx (t2 :: p))

/-- The model's `simplify`: canonical polynomial normal form. -/
def simplifyEx (e : Ex) : Ex := pToEx (pOfEx e)

/-- Variables of a monomial. -/
def mVars (m : Monomial) : Finset Nat := (m.map (·.1)).toFinset

/-- Variables occurring in a polynomial. -/
def pVars : Poly → Finset Nat
  | [] => ∅
  | t :: p => mVars t.2 ∪ pVars p

/- ### The abstract computer-algebra capability.

The fields are exactly the sympy operations `is_equivalent_up_to_constant`
calls; the ones whose Python counterparts can raise return `Option`, with
`none` standing for a raised exception. `pick` models Python's
`list(main_variables)[0]` on the set of candidate variables. -/

structure CAS (E : Type) where
  sympify : E → Option E
  freeSymbols : E → Finset Nat
  diff : E → Nat → Option E
  simplify : E → Option E
  sub : E → E → E
  isZero : E → Bool
  pick : Finset Nat → Nat

/-- The body of the `try:` block of `is_equivalent_up_to_constant`
(app/utils.py lines 24-69), translated clause by clause; `none` is an
exception escaping to the `except` handler. -/
def equivBody {E : Type} (cas : CAS E) (a0 b0 : E) : Option Bool :=
  match cas.sympify a0 with
  | none => none
  | some a =>
    match cas.sympify b0 with
    | none => none
    | some b =>
      -- variables = user_answer.free_symbols.union(correct_answer.free_symbols)
      let vars0 := cas.freeSymbols a ∪ cas.freeSymbols b
      if vars0 = ∅ then some true
      else
        -- main_variables = variables - {sp.Symbol('C')}
        let mainVars := vars0 \ {constC}
        if mainVars = ∅ then some true
        else
          -- var = list(main_variables)[0]
          let var := cas.pick mainVars
          match cas.diff a var with
          | none => none
          | some userDerivative =>
            match cas.diff b var with
            | none => none
            | some correctDerivative =>
              match cas.simplify (cas.sub userDerivative correctDerivative) with
              | none => none
              | some difference =>
                if cas.isZero difference then some true
                else
                  match cas.simplify (cas.sub a b) with
                  | none => none
                  | some exprDifference =>
                    -- difference_vars = expr_difference.free_symbols - {C}
                    some (decide (cas.freeSymbols exprDifference \ {constC} = ∅))

/-- `is_equivalent_up_to_constant` (app/utils.py): `None` checks first,
then the `try:` body with the `except` handler returning `False`. -/
def is_equivalent_up_to_constant {E : Type} (cas : CAS E) :
    Option E → Option E → Bool
  | none, _ => false
  | _, none => false
  | some a, some b => (equivBody cas a b).getD false

/- ### The concrete instance: expressions of `Ex`, simplification by
polynomial normal form, total operations. -/

/-- The concrete computer-algebra instance used as the model of sympy on
the `Ex` fragment. Subtraction `a - b` is `Add(a, Mul(-1, b))` as in
sympy; the zero test is structural equality with `Integer(0)`; the
candidate variable is the least element of the set, a deterministic
model of Python's `list(set)[0]`. -/
def ccas : CAS Ex where
  sympify := some
  freeSymbols := fsEx
  diff := fun e v => some (exDiff v e)
  simplify := fun e => some (simplifyEx e)
  sub := fun a b => .add a (.mul (.num (-1)) b)
  isZero := fun e => decide (e = .num 0)
  pick := fun s => s.min.untop' 0

/- ### The three success conditions of the checker (claim C1). -/

/-- The candidate variable set: union of the free symbols with `C`
removed. -/
def candVars {E : Type} (cas : CAS E) (a b : E) : Finset Nat :=
  (cas.freeSymbols a ∪ cas.freeSymbols b) \ {constC}

/-- The primary (derivative) test succeeds with respect to variable
`v`. -/
def derivTest {E : Type} (cas : CAS E) (a b : E) (v : Nat) : Prop :=
  ∃ da db d, cas.diff a v = some da ∧ cas.diff b v = some db ∧
    cas.simplify (cas.sub da db) = some d ∧ cas.isZero d = true

/-- The fallback test succeeds: the simplified direct difference has no
free symbols other than `C`. -/
def fallbackTest {E : Type} (cas : CAS E) (a b : E) : Prop :=
  ∃ d, cas.simplify (cas.sub a b) = some d ∧
    cas.freeSymbols d \ {constC} = ∅

/- ### The sanitizer/normalizer of `parse_latex_safely` (app/utils.py
lines 76-146), embedded over `List Char`. Python's `re.sub` calls are
modelled by a single left-to-right scanner `reScan` parameterised by a
matcher for the concrete pattern; matchers consume a nonempty prefix and
return the replacement text, the last character of the matched span (the
lookbehind context for the continuation) and the rest of the input. -/

/-- Python `str.strip` whitespace set. -/
def isPyWS (c : Char) : Bool :=
  c = ' ' || c = '\t' || c = '\n' || c = '\r' || c = '\x0B' || c = '\x0C'

/-- Python `str.strip()`. -/
def pyStrip (s : String) : String :=
  ⟨((s.data.dropWhile isPyWS).reverse.dropWhile isPyWS).reverse⟩

/-- Python `str.lower()` (ASCII fragment). -/
def strLower (s : String) : String := ⟨s.data.map Char.toLower⟩

/-- Does `s` start with `pat`? -/
def startsList : List Char → List Char → Bool
  | [], _ => true
  | _ :: _, [] => false
  | p :: ps, c :: cs => if p = c then startsList ps cs else false

/-- Python's substring test `pat in s`. -/
def hasSubList (pat : List Char) : List Char → Bool
  | [] => startsList pat []
  | c :: cs => startsList pat (c :: cs) || hasSubList pat cs

/-- Substring test on strings. -/
def containsSubstr (s pat : String) : Bool := hasSubList pat.data s.data

/-- The fixed denylist of dangerous LaTeX commands. -/
def dangerous_patterns : List String :=
  ["\\input", "\\include", "\\write", "\\read", "\\openin", "\\openout",
   "\\immediate", "\\special", "\\catcode", "\\def", "\\let"]

/-- Case-insensitive character comparison (`re.IGNORECASE`). -/
def ciEqc (a b : Char) : Bool := a.toLower = b.toLower

/-- Strip `pat` from the front of the input, case-insensitively. -/
def ciStrip : List Char → List Char → Option (List Char)
  | [], s => some s
  | _ :: _, [] => none
  | p :: ps, c :: cs => if ciEqc p c then ciStrip ps cs else none

/-- Strip `pat` from the front of the input, case-sensitively. -/
def csStrip : List Char → List Char → Option (List Char)
  | [], s => some s
  | _ :: _, [] => none
  | p :: ps, c :: cs => if p = c then csStrip ps cs else none

/-- A matcher step: given the previous character (lookbehind context) and
the remaining input, either fail or return the replacement text, the
last character of the matched span, and the rest of the input. -/
def MatchFun : Type :=
  Option Char → List Char → Option (List Char × Option Char × List Char)

/-- The scanner driving one `re.sub` call: at each position try the
matcher; on success emit the replacement and continue after the matched
span, otherwise copy one character. Fuelled so that it is structural
(the fuel is the length of the input, always sufficient because matches
consume at least one character). -/
def reScanF (run : MatchFun) : Nat → Option Char → List Char → List Char
  | _, _, [] => []
  | 0, _, l => l
  | Nat.succ n, prev, c :: cs =>
    match run prev (c :: cs) with
    | some (out, prev2, rest) => out ++ reScanF run n prev2 rest
    | none => c :: reScanF run n (some c) cs

/-- One `re.sub` pass over the whole input. -/
def reScan (run : MatchFun) (prev : Option Char) (l : List Char) : List Char :=
  reScanF run l.length prev l

/-- The lookbehind test: is the previous character in the forbidden
class? (Start of string has no previous character.) -/
def prevBad (bad : Char → Bool) : Option Char → Bool
  | some p => bad p
  | none => false

/-- Matcher for `re.sub(rf"(?<!X){fname}\(", rf"\\{fname}(", s, flags=IGNORECASE)`:
a case-insensitive occurrence of `name ++ "("` not preceded by a
character in `bad` is replaced by `'\\' :: name ++ "("`. -/
def fnameRun (bad : Char → Bool) (name : List Char) : MatchFun :=
  fun prev l =>
    if prevBad bad prev then none
    else
      match ciStrip (name ++ ['(']) l with
      | some rest => some ('\\' :: (name ++ ['(']), some '(', rest)
      | none => none

/-- The six inverse-trig names of the compound pattern. -/
def arcNames : List (List Char) :=
  ["sin".data, "cos".data, "tan".data, "sec".data, "csc".data, "cot".data]

/-- Python `\w`: word characters (ASCII fragment). -/
def isWordChar (c : Char) : Bool :=
  ('A' ≤ c && c ≤ 'Z') || ('a' ≤ c && c ≤ 'z') || ('0' ≤ c && c ≤ '9') || c = '_'

/-- Try the alternation `(sin|cos|tan|sec|csc|cot)` followed by a word
boundary. -/
def arcTry : List (List Char) → List Char → Option (List Char × List Char)
  | [], _ => none
  | n :: ns, r =>
    match csStrip n r with
    | some r2 =>
      match r2 with
      | [] => some (n, r2)
      | c :: _ => if isWordChar c then none else some (n, r2)
    | none => arcTry ns r

/-- Matcher for `re.sub(r"\\arc\\(sin|cos|tan|sec|csc|cot)\b", r"\\arc\1", s)`. -/
def arcRun : MatchFun :=
  fun _ l =>
    match csStrip ('\\' :: 'a' :: 'r' :: 'c' :: ['\\']) l with
    | some r =>
      match arcTry arcNames r with
      | some (n, r2) =>
        some ('\\' :: 'a' :: 'r' :: 'c' :: n, some (n.getLastD 'c'), r2)
      | none => none
    | none => none

/-- The six already-backslashed inverse names of the second group of
substitutions. -/
def invNames : List (List Char) :=
  ["arcsin".data, "arccos".data, "arctan".data, "arcsec".data,
   "arccsc".data, "arccot".data]

/-- The basic function names of the third group of substitutions. -/
def basicNames : List (List Char) :=
  ["sin".data, "cos".data, "tan".data, "ln".data, "log".data]

/-- Lookbehind class of the inverse-name substitutions: `(?<!\\)`. -/
def badBS (c : Char) : Bool := c = '\\'

/-- Lookbehind class of the basic-name substitutions: `(?<![\\A-Za-z])`. -/
def badBSLetter (c : Char) : Bool :=
  c = '\\' || ('A' ≤ c && c ≤ 'Z') || ('a' ≤ c && c ≤ 'z')

/-- The function-name repair step: the compound `\arc\sin` fix, then the
six inverse names, then the five basic names, in the order of the
source. -/
def repairList (l : List Char) : List Char :=
  let l1 := reScan arcRun none l
  let l2 := invNames.foldl (fun acc n => reScan (fnameRun badBS n) none acc) l1
  basicNames.foldl (fun acc n => reScan (fnameRun badBSLetter n) none acc) l2

/-- The four constant markers whose absence (with no `=`) triggers the
`+ C` injection. -/
def addCCond (l : List Char) : Bool :=
  !hasSubList "+C".data l && !hasSubList "+ C".data l &&
    !hasSubList "-C".data l && !hasSubList "- C".data l &&
    !hasSubList "=".data l

/-- The constant-of-integration injection step (the two nested `if`s of
the source). -/
def addConstList (l : List Char) : List Char :=
  if !hasSubList "+C".data l && !hasSubList "+ C".data l &&
      !hasSubList "-C".data l && !hasSubList "- C".data l then
    if !hasSubList "=".data l then l ++ " + C".data else l
  else l

/-- The normalization performed inside the `try:` block before
`parse_latex(latex_str)` is called: re-strip, repair function names,
inject the constant. -/
def normalizeLatex (t : String) : String :=
  ⟨addConstList (repairList (pyStrip t).data)⟩

/-- `parse_latex_safely` (app/utils.py): emptiness, length and denylist
checks, then normalization and the external parser; `parse_latex`
models `sympy.parsing.latex.parse_latex` together with the surrounding
`try/except` (a raised exception is `none`). -/
def parse_latex_safely {E : Type} (parse_latex : String → Option E)
    (latex_str : String) : Option E :=
  if pyStrip latex_str = "" then none
  else
    let t := pyStrip latex_str
    if 1000 < t.length then none
    else if dangerous_patterns.any (fun p => containsSubstr (strLower t) p) then none
    else parse_latex (normalizeLatex t)

/-- No position of the input matches `run` during a scan that starts
with lookbehind context `prev` (so the corresponding `re.sub` is the
identity). -/
def noScanMatch (run : MatchFun) : Option Char → List Char → Bool
  | _, [] => true
  | prev, c :: cs => (run prev (c :: cs)).isNone && noScanMatch run (some c) cs

/-- None of the eleven repair substitutions matches anywhere in `s`. -/
def noRepairMatch (s : String) : Bool :=
  noScanMatch arcRun none s.data &&
    invNames.all (fun n => noScanMatch (fnameRun badBS n) none s.data) &&
    basicNames.all (fun n => noScanMatch (fnameRun badBSLetter n) none s.data)

/-- The lookbehind context as a list (used to state the rewrite lemma of
the repair step: the character before the scanned region, if any). -/
def ctxList : Option Char → List Char
  | none => []
  | some c => [c]

/-- Executable overlap conditions used to discharge, by evaluation, the
hypotheses of the scanner lemmas for the concrete patterns and targets
of claim C6. `fnameStartB`: the pattern mismatches the target at its
start. -/
def fnameStartB (name T : List Char) : Bool :=
  (List.range (min (name ++ ['(']).length T.length)).any
    (fun i => !(ciEqc ((name ++ ['(']).getD i '?') (T.getD i '?')))

/-- At every interior position of the target, a match is excluded either
by the lookbehind class or by a character mismatch within the target. -/
def fnameMidB (bad : Char → Bool) (name T : List Char) : Bool :=
  (List.range T.length).all (fun j =>
    if j = 0 then true
    else
      bad (T.getD (j - 1) '?') ||
        (List.range (min (name ++ ['(']).length (T.length - j))).any
          (fun i => !(ciEqc ((name ++ ['(']).getD i '?') (T.getD (j + i) '?'))))

/-- No match starting before the target can overlap into it: at every
shift the pattern mismatches the target within the overlap. -/
def fnamePreB (name T : List Char) : Bool :=
  (List.range (name ++ ['(']).length).all (fun d =>
    if d = 0 then true
    else
      (List.range (min ((name ++ ['(']).length - d) T.length)).any
        (fun i => !(ciEqc ((name ++ ['(']).getD (d + i) '?') (T.getD i '?'))))

/-- The matched span of the compound-name substitution. -/
def arcSpan (n : List Char) : List Char := '\\' :: 'a' :: 'r' :: 'c' :: '\\' :: n

/-- No character of the target is a backslash (so the compound pattern
can match at none of its positions). -/
def arcNoBSB (T : List Char) : Bool := T.all (fun c => !(decide (c = '\\')))

/-- No compound-pattern match starting before the target can overlap
into it. -/
def arcPreB (T : List Char) : Bool :=
  arcNames.all (fun n =>
    (List.range (arcSpan n).length).all (fun d =>
      if d = 0 then true
      else
        (List.range (min ((arcSpan n).length - d) T.length)).any
          (fun i => !(decide ((arcSpan n).getD (d + i) '?' = T.getD i '?')))))

/- ### The canonical renderer `sympy_to_latex` (app/utils.py lines
149-187). The sympy operations it calls are abstracted as a
`RenderModel`; `gtZero` models the truth-value test `C_coeff > 0`, which
raises `TypeError` on a symbolic coefficient (`none`). -/

structure RenderModel (E : Type) where
  freeSymbols : E → Finset Nat
  subsC0 : E → E
  coeffC1 : E → Option E
  eqInt : E → Int → Bool
  gtZero : E → Option Bool
  latex : E → String
  toStr : E → String

/-- `sympy_to_latex` (app/utils.py): isolate the coefficient of `C`,
render the remainder, re-attach the constant term in trailing position;
the `except` handler returns `str(expr)`. -/
def sympy_to_latex {E : Type} (M : RenderModel E) (expr : E) : String :=
  if constC ∈ M.freeSymbols expr then
    match M.coeffC1 expr with
    | some cCoeff =>
      let mainLatex := M.latex (M.subsC0 expr)
      if M.eqInt cCoeff 1 then mainLatex ++ " + C"
      else if M.eqInt cCoeff (-1) then mainLatex ++ " - C"
      else
        let cLatex := M.latex cCoeff
        match M.gtZero cCoeff with
        | some true => mainLatex ++ " + " ++ cLatex ++ " C"
        | some false => mainLatex ++ " " ++ cLatex ++ " C"
        | none => M.toStr expr
    | none => M.latex expr
  else M.latex expr

/-- `subs(C, 0)` on the normal form: drop every monomial containing
`C`. -/
def pSubsC0 (p : Poly) : Poly :=
  p.filter (fun t => !(t.2.any (fun ve => decide (ve.1 = constC))))

/-- Total degree of `C` in a monomial. -/
def mExpC (m : Monomial) : Nat :=
  m.foldr (fun ve acc => if ve.1 = constC then ve.2 + acc else acc) 0

/-- Remove the `C` factor from a monomial. -/
def mDropC (m : Monomial) : Monomial :=
  m.filter (fun ve => !(decide (ve.1 = constC)))

/-- `coeff(C, 1)` on the normal form: the terms of `C`-degree exactly 1,
with `C` removed. -/
def pCoeffC1 (p : Poly) : Poly :=
  (p.filter (fun t => decide (mExpC t.2 = 1))).map (fun t => (t.1, mDropC t.2))

/-- Structural equality with the integer `k` (sympy `==`). -/
def pEqInt (p : Poly) (k : Int) : Bool :=
  if k = 0 then decide (p = []) else decide (p = [(k, [])])

/-- The truth value of `p > 0`: defined for numeric constants, a raised
`TypeError` (`none`) for symbolic values. -/
def pGtZero (p : Poly) : Option Bool :=
  match p with
  | [] => some false
  | [(c, [])] => some (decide (0 < c))
  | _ => none

/-- Display names of the model symbols (0 is the reserved `C`). -/
def varName (n : Nat) : String :=
  if n = 0 then "C" else if n = 1 then "x" else if n = 2 then "y" else "z"

/-- Render a monomial with the given factor separator and power mark. -/
def mStrWith (sep pow : String) : Monomial → String
  | [] => ""
  | [(v, e)] => varName v ++ (if e = 1 then "" else pow ++ toString e)
  | (v, e) :: t :: m =>
    (varName v ++ (if e = 1 then "" else pow ++ toString e)) ++ sep ++
      mStrWith sep pow (t :: m)

/-- Render one term. -/
def tStrWith (sep pow : String) (c : Int) (m : Monomial) : String :=
  if m = [] then toString c
  else if c = 1 then mStrWith sep pow m
  else toString c ++ sep ++ mStrWith sep pow m

/-- Render a polynomial. -/
def pStrWith (sep pow : String) : Poly → String
  | [] => "0"
  | [t] => tStrWith sep pow t.1 t.2
  | t :: t2 :: p => tStrWith sep pow t.1 t.2 ++ " + " ++ pStrWith sep pow (t2 :: p)

/-- The model of `sympy.latex` (space-separated products, `^` powers). -/
def pLatex : Poly → String := pStrWith " " "^"

/-- The model of Python `str()` of a sympy expression (`*` products,
`**` powers). -/
def pStr : Poly → String := pStrWith "*" "**"

/-- The concrete render model on polynomial normal forms. -/
def crender : RenderModel Poly where
  freeSymbols := pVars
  subsC0 := pSubsC0
  coeffC1 := fun p => some (pCoeffC1 p)
  eqInt := pEqInt
  gtZero := pGtZero
  latex := pLatex
  toStr := pStr

/-- Claim C1: for non-`None` sympy expressions (so `sympify` is the
identity on them) on which no internal exception occurs, the checker
returns `True` iff the candidate variable set is empty, or the
derivative test succeeds at the selected variable, or the fallback test
succeeds. -/
theorem equiv_true_iff {E : Type} (cas : CAS E) (a b : E)
    (ha : cas.sympify a = some a) (hb : cas.sympify b = some b)
    (hok : equivBody cas a b ≠ none) :
    is_equivalent_up_to_constant cas (some a) (some b) = true ↔
      (candVars cas a b = ∅ ∨
        derivTest cas a b (cas.pick (candVars cas a b)) ∨
        fallbackTest cas a b) := by
  have hrw : is_equivalent_up_to_constant cas (some a) (some b)
      = (equivBody cas a b).getD false := rfl
  rw [hrw]
  unfold equivBody at hok ⊢
  rw [ha, hb] at hok ⊢
  simp only at hok ⊢
  by_cases h0 : cas.freeSymbols a ∪ cas.freeSymbols b = ∅
  · rw [if_pos h0]
    have hc : candVars cas a b = ∅ := by
      simp [candVars, h0]
    simp [hc]
  · rw [if_neg h0] at hok ⊢
    by_cases h1 : (cas.freeSymbols a ∪ cas.freeSymbols b) \ {constC} = ∅
    · rw [if_pos h1]
      have hc : candVars cas a b = ∅ := h1
      simp [hc]
    · rw [if_neg h1] at hok ⊢
      have hcand : candVars cas a b
          = (cas.freeSymbols a ∪ cas.freeSymbols b) \ {constC} := rfl
      cases hda : cas.diff a (cas.pick ((cas.freeSymbols a ∪ cas.freeSymbols b) \ {constC})) with
      | none => rw [hda] at hok; simp at hok
      | some da =>
        rw [hda] at hok
        simp only at hok ⊢
        cases hdb : cas.diff b (cas.pick ((cas.freeSymbols a ∪ cas.freeSymbols b) \ {constC})) with
        | none => rw [hdb] at hok; simp at hok
        | some db =>
          rw [hdb] at hok
          simp only at hok ⊢
          cases hs : cas.simplify (cas.sub da db) with
          | none => rw [hs] at hok; simp at hok
          | some d =>
            rw [hs] at hok
            simp only at hok ⊢
            by_cases hz : cas.isZero d = true
            · rw [if_pos hz]
              simp only [Option.getD_some, true_iff]
              refine Or.inr (Or.inl ?_)
              rw [hcand]
              exact ⟨da, db, d, hda, hdb, hs, hz⟩
            · rw [if_neg hz] at hok ⊢
              cases hf : cas.simplify (cas.sub a b) with
              | none => rw [hf] at hok; simp at hok
              | some ed =>
                simp only
                simp only [Option.getD_some, decide_eq_true_eq]
                constructor
                · intro hemp
                  exact Or.inr (Or.inr ⟨ed, hf, hemp⟩)
                · rintro (hc | hd | hfall)
                  · rw [hcand] at hc; exact absurd hc h1
                  · rcases hd with ⟨da1, db1, d1, hda1, hdb1, hs1, hz1⟩
                    rw [hcand] at hda1 hdb1
                    rw [hda1] at hda
                    rw [hdb1] at hdb
                    cases hda; cases hdb
                    rw [hs1] at hs
                    cases hs
                    exact absurd hz1 hz
                  · rcases hfall with ⟨ed1, hf1, hemp1⟩
                    rw [hf1] at hf
                    cases hf
                    exact hemp1

/-- Witness for the claim-C1 theorem: a concrete application on the
concrete instance, all hypotheses discharged by evaluation. -/
theorem equiv_true_iff_witness :
    is_equivalent_up_to_constant ccas (some (Ex.sym 1)) (some (.add (.sym 1) (.num 2))) = true ↔
      (candVars ccas (.sym 1) (.add (.sym 1) (.num 2)) = ∅ ∨
        derivTest ccas (.sym 1) (.add (.sym 1) (.num 2))
          (ccas.pick (candVars ccas (.sym 1) (.add (.sym 1) (.num 2)))) ∨
        fallbackTest ccas (.sym 1) (.add (.sym 1) (.num 2))) :=
  equiv_true_iff ccas (.sym 1) (.add (.sym 1) (.num 2)) rfl rfl (by decide)

/-- Claim C2: the checker is fail-closed. It is a total Lean function
(no exception can propagate, modelling the catch-all handler), and it
returns `False` whenever either input is `None` or the body raises. -/
theorem equiv_fail_closed {E : Type} (cas : CAS E) (x y : Option E)
    (h : x = none ∨ y = none ∨
      ∃ a b, x = some a ∧ y = some b ∧ equivBody cas a b = none) :
    is_equivalent_up_to_constant cas x y = false := by
  rcases h with h | h | ⟨a, b, hx, hy, hbody⟩
  · subst h; cases y <;> rfl
  · subst h; cases x <;> rfl
  · subst hx; subst hy
    simp [is_equivalent_up_to_constant, hbody]

/-- Witness for the claim-C2 theorem: a `None` first argument yields
`False`. -/
theorem equiv_fail_closed_witness :
    is_equivalent_up_to_constant ccas none (some (Ex.num 1)) = false :=
  equiv_fail_closed ccas none (some (Ex.num 1)) (Or.inl rfl)

/- ### Laws of the polynomial normal form needed for claims C3 and C10. -/

theorem pAdd_nil_left (q : Poly) : pAdd [] q = q := rfl

theorem pAdd_cons_nil (c1 : Int) (m1 : Monomial) (p1 : Poly) :
    pAdd ((c1, m1) :: p1) [] = (c1, m1) :: p1 := rfl

/-- The merge equation for two cons cells, stated as the usual
three-way comparison. -/
theorem pAdd_cons_cons (c1 c2 : Int) (m1 m2 : Monomial) (p1 p2 : Poly) :
    pAdd ((c1, m1) :: p1) ((c2, m2) :: p2) =
      match cmpM m1 m2 with
      | .lt => (c1, m1) :: pAdd p1 ((c2, m2) :: p2)
      | .gt => (c2, m2) :: pAdd ((c1, m1) :: p1) p2
      | .eq =>
        if c1 + c2 = 0 then pAdd p1 p2 else (c1 + c2, m1) :: pAdd p1 p2 := by
  show pAddGo c1 m1 p1 (pAdd p1) ((c2, m2) :: p2) = _
  unfold pAddGo
  rfl

theorem cmpN_self (a : Nat) : cmpN a a = .eq := by
  simp [cmpN]

theorem cmpN_eq {a b : Nat} (h : cmpN a b = .eq) : a = b := by
  unfold cmpN at h
  split at h
  · exact absurd h (by simp)
  · split at h
    · exact absurd h (by simp)
    · omega

theorem cmpN_lt_gt (a b : Nat) : cmpN a b = .lt ↔ cmpN b a = .gt := by
  unfold cmpN
  rcases Nat.lt_trichotomy a b with h | h | h
  · simp [if_pos h, if_neg (show ¬ b < a by omega)]
  · subst h
    simp [if_neg (show ¬ a < a by omega)]
  · simp [if_neg (show ¬ a < b by omega), if_pos h]

theorem cmpM_self (m : Monomial) : cmpM m m = .eq := by
  induction m with
  | nil => rfl
  | cons t m ih =>
    obtain ⟨v, e⟩ := t
    simp [cmpM, cmpN_self, ih]

theorem cmpM_eq : ∀ {m n : Monomial}, cmpM m n = .eq → m = n
  | [], [], _ => rfl
  | [], _ :: _, h => by simp [cmpM] at h
  | _ :: _, [], h => by simp [cmpM] at h
  | (v1, e1) :: m1, (v2, e2) :: m2, h => by
    simp only [cmpM] at h
    cases hv : cmpN v1 v2 with
    | lt => rw [hv] at h; simp at h
    | gt => rw [hv] at h; simp at h
    | eq =>
      rw [hv] at h
      cases he : cmpN e1 e2 with
      | lt => rw [he] at h; simp at h
      | gt => rw [he] at h; simp at h
      | eq =>
        rw [he] at h
        simp only at h
        rw [cmpN_eq hv, cmpN_eq he, cmpM_eq h]

theorem cmpM_lt_gt : ∀ (m n : Monomial), cmpM m n = .lt ↔ cmpM n m = .gt
  | [], [] => by simp [cmpM]
  | [], _ :: _ => by simp [cmpM]
  | _ :: _, [] => by simp [cmpM]
  | (v1, e1) :: m1, (v2, e2) :: m2 => by
    simp only [cmpM]
    cases hv : cmpN v1 v2 with
    | lt =>
      have hv2 : cmpN v2 v1 = .gt := (cmpN_lt_gt v1 v2).mp hv
      rw [hv2]
      simp
    | gt =>
      have hv2 : cmpN v2 v1 = .lt := (cmpN_lt_gt v2 v1).mpr hv
      rw [hv2]
      simp
    | eq =>
      have hv2 : cmpN v2 v1 = .eq := by rw [cmpN_eq hv, cmpN_self]
      rw [hv2]
      cases he : cmpN e1 e2 with
      | lt =>
        have he2 : cmpN e2 e1 = .gt := (cmpN_lt_gt e1 e2).mp he
        rw [he2]
        simp
      | gt =>
        have he2 : cmpN e2 e1 = .lt := (cmpN_lt_gt e2 e1).mpr he
        rw [he2]
        simp
      | eq =>
        have he2 : cmpN e2 e1 = .eq := by rw [cmpN_eq he, cmpN_self]
        rw [he2]
        simp only
        exact cmpM_lt_gt m1 m2

theorem pAdd_nil_right (p : Poly) : pAdd p [] = p := by
  cases p with
  | nil => rfl
  | cons t p1 => exact pAdd_cons_nil t.1 t.2 p1

theorem pNeg_cons (c : Int) (m : Monomial) (p : Poly) :
    pNeg ((c, m) :: p) = (-c, m) :: pNeg p := rfl

theorem pAdd_pNeg_self (p : Poly) : pAdd p (pNeg p) = [] := by
  induction p with
  | nil => rfl
  | cons t p ih =>
    obtain ⟨c, m⟩ := t
    show pAdd ((c, m) :: p) ((-c, m) :: pNeg p) = []
    rw [pAdd_cons_cons, cmpM_self]
    simp only
    rw [if_pos (show c + -c = 0 by omega)]
    exact ih

theorem pNeg_pAdd : ∀ (p q : Poly), pNeg (pAdd p q) = pAdd (pNeg p) (pNeg q)
  | [], q => rfl
  | (c1, m1) :: p1, [] => by
    rw [pAdd_cons_nil]
    show (-c1, m1) :: pNeg p1 = pAdd ((-c1, m1) :: pNeg p1) []
    rw [pAdd_cons_nil]
  | (c1, m1) :: p1, (c2, m2) :: p2 => by
    rw [pAdd_cons_cons]
    cases h : cmpM m1 m2 with
    | lt =>
      simp only [pNeg_cons, pNeg_pAdd p1 ((c2, m2) :: p2)]
      rw [pAdd_cons_cons, h]
    | gt =>
      simp only [pNeg_cons, pNeg_pAdd ((c1, m1) :: p1) p2]
      rw [pAdd_cons_cons, h]
    | eq =>
      by_cases hz : c1 + c2 = 0
      · simp only [if_pos hz, pNeg_cons, pNeg_pAdd p1 p2]
        rw [pAdd_cons_cons, h]
        simp only
        rw [if_pos (show -c1 + -c2 = 0 by omega)]
      · simp only [if_neg hz, pNeg_cons, pNeg_pAdd p1 p2]
        rw [pAdd_cons_cons, h]
        simp only
        rw [if_neg (show ¬ -c1 + -c2 = 0 by omega)]
        congr 1
        simp only [Prod.mk.injEq, and_true]
        omega
termination_by p q => p.length + q.length

theorem pAdd_comm : ∀ (p q : Poly), pAdd p q = pAdd q p
  | [], q => by rw [pAdd_nil_left, pAdd_nil_right]
  | p, [] => by rw [pAdd_nil_right, pAdd_nil_left]
  | (c1, m1) :: p1, (c2, m2) :: p2 => by
    rw [pAdd_cons_cons, pAdd_cons_cons]
    cases h : cmpM m1 m2 with
    | lt =>
      have h2 : cmpM m2 m1 = .gt := (cmpM_lt_gt m1 m2).mp h
      rw [h2]
      simp only
      rw [pAdd_comm p1 ((c2, m2) :: p2)]
    | gt =>
      have h2 : cmpM m2 m1 = .lt := (cmpM_lt_gt m2 m1).mpr h
      rw [h2]
      simp only
      rw [pAdd_comm ((c1, m1) :: p1) p2]
    | eq =>
      have hm : m1 = m2 := cmpM_eq h
      have h2 : cmpM m2 m1 = .eq := by rw [hm, cmpM_self]
      rw [h2]
      simp only
      rw [Int.add_comm c2 c1, hm, pAdd_comm p1 p2]
termination_by p q => p.length + q.length

theorem pNeg_pNeg (p : Poly) : pNeg (pNeg p) = p := by
  unfold pNeg
  rw [List.map_map]
  have : ((fun t : Int × Monomial => (-t.1, t.2)) ∘ fun t : Int × Monomial => (-t.1, t.2)) = id := by
    funext t
    simp
  rw [this, List.map_id]

/-- The difference `q - p` is the negation of `p - q` at the level of the
normal form. -/
theorem pAdd_neg_swap (p q : Poly) :
    pAdd q (pNeg p) = pNeg (pAdd p (pNeg q)) := by
  rw [pNeg_pAdd, pNeg_pNeg, pAdd_comm]

theorem mMul_nil_left (m : Monomial) : mMul [] m = m := rfl

theorem pMul_negOne (q : Poly) : pMul [((-1 : Int), ([] : Monomial))] q = pNeg q := by
  show pAdd (tMul (-1) [] q) [] = pNeg q
  rw [pAdd_nil_right]
  unfold tMul pNeg
  apply List.map_congr_left
  intro t _
  rw [mMul_nil_left]
  simp

/-- `a - b` as the code forms it (`Add(a, Mul(-1, b))`) normalises to the
difference of the normal forms. -/
theorem pOfEx_sub (x y : Ex) :
    pOfEx (.add x (.mul (.num (-1)) y)) = pAdd (pOfEx x) (pNeg (pOfEx y)) := by
  show pAdd (pOfEx x) (pMul (pOfEx (.num (-1))) (pOfEx y)) = _
  have h1 : pOfEx (.num (-1)) = [((-1 : Int), ([] : Monomial))] := by
    simp [pOfEx]
  rw [h1, pMul_negOne]

theorem symPow_ne_num0 (v : Nat) (e : Nat) : symPow v e ≠ .num 0 := by
  match e with
  | 0 => simp [symPow]
  | 1 => simp [symPow]
  | e + 2 => simp [symPow]

theorem mEx_ne_num0 (m : Monomial) : mEx m ≠ .num 0 := by
  match m with
  | [] => simp [mEx]
  | [(v, e)] => exact symPow_ne_num0 v e
  | (v, e) :: t :: mm => simp [mEx]

theorem tEx_eq_num0 (c : Int) (m : Monomial) :
    tEx (c, m) = .num 0 ↔ (m = [] ∧ c = 0) := by
  cases m with
  | nil => simp [tEx]
  | cons t mm =>
    obtain ⟨v, e⟩ := t
    simp only [tEx]
    constructor
    · intro h
      split at h
      · exact absurd h (mEx_ne_num0 _)
      · simp at h
    · rintro ⟨h, -⟩
      simp at h

/-- Zero detection is invariant under negation of the normal form. -/
theorem pToEx_pNeg_num0 (r : Poly) :
    pToEx (pNeg r) = .num 0 ↔ pToEx r = .num 0 := by
  match r with
  | [] => simp [pNeg]
  | [(c, m)] =>
    show pToEx [(-c, m)] = .num 0 ↔ _
    show tEx (-c, m) = .num 0 ↔ tEx (c, m) = .num 0
    rw [tEx_eq_num0, tEx_eq_num0]
    constructor
    · rintro ⟨h1, h2⟩; exact ⟨h1, by omega⟩
    · rintro ⟨h1, h2⟩; exact ⟨h1, by omega⟩
  | (c1, m1) :: (c2, m2) :: rr =>
    show Ex.add (tEx (-c1, m1)) (pToEx (pNeg ((c2, m2) :: rr))) = .num 0 ↔
      Ex.add (tEx (c1, m1)) (pToEx ((c2, m2) :: rr)) = .num 0
    simp

theorem fsEx_tEx (c : Int) (m : Monomial) : fsEx (tEx (c, m)) = fsEx (mEx m) := by
  cases m with
  | nil => rfl
  | cons t mm =>
    obtain ⟨v, e⟩ := t
    simp only [tEx]
    split
    · rfl
    · show fsEx (.num c) ∪ fsEx (mEx ((v, e) :: mm)) = fsEx (mEx ((v, e) :: mm))
      show ∅ ∪ fsEx (mEx ((v, e) :: mm)) = fsEx (mEx ((v, e) :: mm))
      exact Finset.empty_union _

/-- The free symbols of the rendered normal form are invariant under
negation. -/
theorem fsEx_pToEx_pNeg (r : Poly) :
    fsEx (pToEx (pNeg r)) = fsEx (pToEx r) := by
  match r with
  | [] => rfl
  | [(c, m)] =>
    show fsEx (tEx (-c, m)) = fsEx (tEx (c, m))
    rw [fsEx_tEx, fsEx_tEx]
  | (c1, m1) :: (c2, m2) :: rr =>
    show fsEx (.add (tEx (-c1, m1)) (pToEx (pNeg ((c2, m2) :: rr))))
      = fsEx (.add (tEx (c1, m1)) (pToEx ((c2, m2) :: rr)))
    show fsEx (tEx (-c1, m1)) ∪ fsEx (pToEx (pNeg ((c2, m2) :: rr)))
      = fsEx (tEx (c1, m1)) ∪ fsEx (pToEx ((c2, m2) :: rr))
    rw [fsEx_tEx, fsEx_tEx, fsEx_pToEx_pNeg ((c2, m2) :: rr)]

/- ### Claims C3 and C10 on the concrete instance. -/

/-- If the derivatives of the two expressions have the same normal form
for every variable, the checker accepts. -/
theorem equiv_true_of_deriv_eq (a b : Ex)
    (hderiv : ∀ v, pOfEx (exDiff v b) = pOfEx (exDiff v a)) :
    is_equivalent_up_to_constant ccas (some a) (some b) = true := by
  show (equivBody ccas a b).getD false = true
  unfold equivBody
  simp only [ccas]
  by_cases h0 : fsEx a ∪ fsEx b = ∅
  · simp [h0]
  · by_cases h1 : (fsEx a ∪ fsEx b) \ {constC} = ∅
    · simp [h0, h1]
    · have hz : ∀ v, simplifyEx (.add (exDiff v a) (.mul (.num (-1)) (exDiff v b)))
          = .num 0 := by
        intro v
        unfold simplifyEx
        rw [pOfEx_sub, hderiv v, pAdd_pNeg_self]
        rfl
      simp [h0, h1, hz]

/-- Claim C3: constant-invariance and reflexivity of the checker on every
expression of the model: `e` is accepted against `e + k` for every
integer constant `k`, and against itself. -/
theorem equiv_const_invariance_and_refl (e : Ex) (k : Int) :
    is_equivalent_up_to_constant ccas (some e) (some (.add e (.num k))) = true ∧
    is_equivalent_up_to_constant ccas (some e) (some e) = true := by
  constructor
  · apply equiv_true_of_deriv_eq
    intro v
    show pOfEx (.add (exDiff v e) (.num 0)) = pOfEx (exDiff v e)
    show pAdd (pOfEx (exDiff v e)) (pOfEx (.num 0)) = pOfEx (exDiff v e)
    have h0 : pOfEx (.num 0) = [] := by simp [pOfEx]
    rw [h0, pAdd_nil_right]
  · apply equiv_true_of_deriv_eq
    intro v
    rfl

/-- Claim C10: the checker treats its two arguments symmetrically on the
concrete instance: the `None` checks, the union of free-symbol sets, the
zero test on the simplified derivative difference and the free-symbol
test on the simplified direct difference are all invariant under
swapping the arguments. -/
theorem equiv_symm (x y : Option Ex) :
    is_equivalent_up_to_constant ccas x y = is_equivalent_up_to_constant ccas y x := by
  cases x with
  | none => cases y <;> rfl
  | some a =>
    cases y with
    | none => rfl
    | some b =>
      show (equivBody ccas a b).getD false = (equivBody ccas b a).getD false
      have hziff : ∀ X Y : Ex,
          (simplifyEx (.add Y (.mul (.num (-1)) X)) = Ex.num 0) ↔
            (simplifyEx (.add X (.mul (.num (-1)) Y)) = Ex.num 0) := by
        intro X Y
        unfold simplifyEx
        rw [pOfEx_sub, pOfEx_sub, pAdd_neg_swap]
        exact pToEx_pNeg_num0 _
      have hvb : ∀ X Y : Ex,
          fsEx (simplifyEx (.add Y (.mul (.num (-1)) X)))
            = fsEx (simplifyEx (.add X (.mul (.num (-1)) Y))) := by
        intro X Y
        unfold simplifyEx
        rw [pOfEx_sub, pOfEx_sub, pAdd_neg_swap]
        exact fsEx_pToEx_pNeg _
      have hbody : equivBody ccas a b = equivBody ccas b a := by
        unfold equivBody
        simp only [ccas]
        rw [Finset.union_comm (fsEx b) (fsEx a)]
        refine if_congr Iff.rfl rfl (if_congr Iff.rfl rfl (if_congr ?_ rfl ?_))
        · simp only [decide_eq_true_eq]
          exact (hziff _ _).symm
        · congr 1
          apply decide_eq_decide.mpr
          rw [hvb a b]
      rw [hbody]

/- ### The sanitizer: claims C4, C5, C7. -/

theorem startsList_refl_append (p v : List Char) : startsList p (p ++ v) = true := by
  induction p with
  | nil => rfl
  | cons c ps ih => simp [startsList, ih]

theorem hasSub_of_starts {pat s : List Char} (h : startsList pat s = true) :
    hasSubList pat s = true := by
  cases s with
  | nil => exact h
  | cons c cs => simp [hasSubList, h]

/-- A pattern occurring verbatim is found by the substring test. -/
theorem hasSub_append_pat (u pat v : List Char) :
    hasSubList pat (u ++ (pat ++ v)) = true := by
  induction u with
  | nil => exact hasSub_of_starts (startsList_refl_append pat v)
  | cons c u ih => simp [hasSubList, ih]

/-- Claim C4: `parse_latex_safely` returns `None` for every input that is
empty or whitespace-only after trimming, or longer than 1000 characters
after trimming, or that contains a denylist entry as a case-insensitive
substring, regardless of mathematical content. -/
theorem parse_latex_safely_rejects {E : Type} (pl : String → Option E) (s : String)
    (h : pyStrip s = "" ∨ 1000 < (pyStrip s).length ∨
      dangerous_patterns.any (fun p => containsSubstr (strLower (pyStrip s)) p) = true) :
    parse_latex_safely pl s = none := by
  unfold parse_latex_safely
  rcases h with h | h | h
  · rw [if_pos h]
  · by_cases h0 : pyStrip s = ""
    · rw [if_pos h0]
    · rw [if_neg h0]
      simp only
      rw [if_pos h]
  · by_cases h0 : pyStrip s = ""
    · rw [if_pos h0]
    · rw [if_neg h0]
      simp only
      by_cases h1 : 1000 < (pyStrip s).length
      · rw [if_pos h1]
      · rw [if_neg h1, if_pos h]

/-- Witness for the claim-C4 theorem: an input containing a denylist
token is rejected. -/
theorem parse_latex_safely_rejects_witness :
    parse_latex_safely (fun _ => some (Ex.num 0)) "\\def x" = none :=
  parse_latex_safely_rejects _ _ (Or.inr (Or.inr (by decide)))

/-- Unfolding helpers for the `String`/`List Char` boundary, proved at an
abstract argument so that no evaluation is attempted. -/
theorem data_mk (l : List Char) : (⟨l⟩ : String).data = l := rfl

theorem mk_data (s : String) : (⟨s.data⟩ : String) = s := rfl

/-- The two nested `if`s of the injection step collapse to a single
five-way condition. -/
theorem addConstList_eq (l : List Char) :
    addConstList l = if addCCond l then l ++ " + C".data else l := by
  unfold addConstList addCCond
  cases h1 : !hasSubList "+C".data l && !hasSubList "+ C".data l &&
      !hasSubList "-C".data l && !hasSubList "- C".data l
  · simp [h1]
  · simp [h1]

/-- Claim C5: the normalization appends " + C" to the trimmed,
function-name-repaired string exactly when that string contains no `=`
and none of `+C`, `+ C`, `-C`, `- C`; in every other case the string is
passed on unchanged. -/
theorem normalize_appends_C (t : String) :
    (addCCond (repairList (pyStrip t).data) = true →
      (normalizeLatex t).data = repairList (pyStrip t).data ++ " + C".data) ∧
    (addCCond (repairList (pyStrip t).data) = false →
      (normalizeLatex t).data = repairList (pyStrip t).data) ∧
    ((normalizeLatex t).data = repairList (pyStrip t).data ++ " + C".data ↔
      addCCond (repairList (pyStrip t).data) = true) := by
  have hdata : (normalizeLatex t).data = addConstList (repairList (pyStrip t).data) := by
    unfold normalizeLatex
    exact data_mk _
  rw [hdata, addConstList_eq]
  refine ⟨?_, ?_, ?_⟩
  · intro h
    rw [if_pos h]
  · intro h
    rw [h]
    simp
  · constructor
    · intro h
      cases hc : addCCond (repairList (pyStrip t).data)
      · rw [hc] at h
        simp only [if_neg Bool.false_ne_true] at h
        have := congrArg List.length h
        simp at this
      · rfl
    · intro h
      rw [if_pos h]

/-- Witness for the claim-C5 theorem: on input "x" the condition holds
and " + C" is appended. -/
theorem normalize_appends_C_witness :
    (normalizeLatex "x").data = repairList (pyStrip "x").data ++ " + C".data :=
  (normalize_appends_C "x").1 (by rfl)

/-- If no position matches, the scan is the identity. -/
theorem reScanF_id_of_noMatch (run : MatchFun) :
    ∀ (n : Nat) (prev : Option Char) (l : List Char),
      noScanMatch run prev l = true → reScanF run n prev l = l := by
  intro n
  induction n with
  | zero =>
    intro prev l _
    cases l <;> rfl
  | succ n ih =>
    intro prev l h
    cases l with
    | nil => rfl
    | cons c cs =>
      simp only [noScanMatch, Bool.and_eq_true, Option.isNone_iff_eq_none] at h
      show reScanF run (n + 1) prev (c :: cs) = c :: cs
      unfold reScanF
      rw [h.1]
      simp only
      rw [ih (some c) cs h.2]

theorem reScan_id_of_noMatch (run : MatchFun) (prev : Option Char) (l : List Char)
    (h : noScanMatch run prev l = true) : reScan run prev l = l :=
  reScanF_id_of_noMatch run l.length prev l h

/-- If none of the eleven substitutions matches, the whole repair step is
the identity. -/
theorem repairList_id (s : List Char)
    (h1 : noScanMatch arcRun none s = true)
    (h2 : ∀ n ∈ invNames, noScanMatch (fnameRun badBS n) none s = true)
    (h3 : ∀ n ∈ basicNames, noScanMatch (fnameRun badBSLetter n) none s = true) :
    repairList s = s := by
  have hfold : ∀ (bad : Char → Bool) (ns : List (List Char)),
      (∀ n ∈ ns, noScanMatch (fnameRun bad n) none s = true) →
      ns.foldl (fun acc n => reScan (fnameRun bad n) none acc) s = s := by
    intro bad ns
    induction ns with
    | nil => intro _; rfl
    | cons n ns ih =>
      intro h
      simp only [List.foldl_cons]
      rw [reScan_id_of_noMatch _ _ _ (h n (by simp))]
      exact ih (fun n2 hn2 => h n2 (by simp [hn2]))
  show List.foldl (fun acc n => reScan (fnameRun badBSLetter n) none acc)
      (List.foldl (fun acc n => reScan (fnameRun badBS n) none acc)
        (reScan arcRun none s) invNames) basicNames = s
  rw [reScan_id_of_noMatch _ _ _ h1, hfold badBS invNames h2,
    hfold badBSLetter basicNames h3]

/-- Claim C7: normalization is idempotent on already-normalized strings:
trimmed, within the length cap, free of denylist tokens, with no repair
pattern matching anywhere, and already ending in " + C" — the text
handed to the underlying LaTeX parser is exactly the input. -/
theorem parse_latex_safely_idempotent {E : Type} (pl : String → Option E) (s : String)
    (htrim : pyStrip s = s)
    (hlen : s.length ≤ 1000)
    (hdanger : dangerous_patterns.any (fun p => containsSubstr (strLower s) p) = false)
    (hnorep : noRepairMatch s = true)
    (hends : ∃ u, s.data = u ++ " + C".data) :
    parse_latex_safely pl s = pl s := by
  obtain ⟨u, hu⟩ := hends
  have hne : ¬ pyStrip s = "" := by
    rw [htrim]
    intro h0
    rw [h0] at hu
    simp at hu
  unfold parse_latex_safely
  rw [if_neg hne]
  simp only
  rw [htrim]
  rw [if_neg (show ¬ 1000 < s.length by omega)]
  rw [if_neg (show ¬ dangerous_patterns.any (fun p => containsSubstr (strLower s) p) = true by
    rw [hdanger]; exact Bool.false_ne_true)]
  refine congrArg pl ?_
  unfold normalizeLatex
  rw [htrim]
  simp only [noRepairMatch, Bool.and_eq_true, List.all_eq_true] at hnorep
  have hlist : addConstList (repairList s.data) = s.data := by
    rw [repairList_id s.data hnorep.1.1 hnorep.1.2 hnorep.2]
    have hsub : hasSubList "+ C".data s.data = true := by
      have hdec : s.data = (u ++ [' ']) ++ ("+ C".data ++ []) := by
        rw [hu]
        have h4 : " + C".data = ' ' :: "+ C".data := rfl
        rw [h4]
        simp
      rw [hdec]
      exact hasSub_append_pat _ _ _
    unfold addConstList
    rw [hsub]
    simp
  rw [hlist]

/-- Witness for the claim-C7 theorem: the already-normalized string
"x + C" reaches the parser unchanged. -/
theorem parse_latex_safely_idempotent_witness :
    parse_latex_safely (fun z => (some z : Option String)) "x + C" = some "x + C" :=
  parse_latex_safely_idempotent (fun z => (some z : Option String)) "x + C"
    (by rfl) (by decide) (by rfl) (by rfl) ⟨['x'], rfl⟩

/- ### The renderer: claims C8 and C9. -/

/-- Claim C8: canonical trailing rendering of the constant of
integration. If `C` is not free the default rendering is returned
unchanged; coefficient exactly 1 appends exactly " + C" (and when the
remainder rendering is `C`-free the output has exactly one `C`);
coefficient exactly −1 appends " - C"; other constant coefficients
append the rendered coefficient and " C", with a "+" separator exactly
when the coefficient is positive. -/
theorem sympy_to_latex_cases {E : Type} (M : RenderModel E) (e : E) :
    (constC ∉ M.freeSymbols e → sympy_to_latex M e = M.latex e) ∧
    (∀ cc, constC ∈ M.freeSymbols e → M.coeffC1 e = some cc →
      M.eqInt cc 1 = true →
        sympy_to_latex M e = M.latex (M.subsC0 e) ++ " + C" ∧
        ((M.latex (M.subsC0 e)).data.count 'C' = 0 →
          (sympy_to_latex M e).data.count 'C' = 1)) ∧
    (∀ cc, constC ∈ M.freeSymbols e → M.coeffC1 e = some cc →
      M.eqInt cc 1 = false → M.eqInt cc (-1) = true →
        sympy_to_latex M e = M.latex (M.subsC0 e) ++ " - C") ∧
    (∀ cc, constC ∈ M.freeSymbols e → M.coeffC1 e = some cc →
      M.eqInt cc 1 = false → M.eqInt cc (-1) = false → M.gtZero cc = some true →
        sympy_to_latex M e = M.latex (M.subsC0 e) ++ " + " ++ M.latex cc ++ " C") ∧
    (∀ cc, constC ∈ M.freeSymbols e → M.coeffC1 e = some cc →
      M.eqInt cc 1 = false → M.eqInt cc (-1) = false → M.gtZero cc = some false →
        sympy_to_latex M e = M.latex (M.subsC0 e) ++ " " ++ M.latex cc ++ " C") := by
  refine ⟨?_, ?_, ?_, ?_, ?_⟩
  · intro h
    unfold sympy_to_latex
    rw [if_neg h]
  · intro cc hC hcoeff h1
    have hres : sympy_to_latex M e = M.latex (M.subsC0 e) ++ " + C" := by
      unfold sympy_to_latex
      rw [if_pos hC, hcoeff]
      simp only
      rw [if_pos h1]
    refine ⟨hres, ?_⟩
    intro hfree
    rw [hres]
    have : (M.latex (M.subsC0 e) ++ " + C").data
        = (M.latex (M.subsC0 e)).data ++ " + C".data := rfl
    rw [this, List.count_append, hfree]
    rfl
  · intro cc hC hcoeff h1 h2
    unfold sympy_to_latex
    rw [if_pos hC, hcoeff]
    simp only
    rw [if_neg (by rw [h1]; exact Bool.false_ne_true), if_pos h2]
  · intro cc hC hcoeff h1 h2 h3
    unfold sympy_to_latex
    rw [if_pos hC, hcoeff]
    simp only
    rw [if_neg (by rw [h1]; exact Bool.false_ne_true),
      if_neg (by rw [h2]; exact Bool.false_ne_true), h3]
  · intro cc hC hcoeff h1 h2 h3
    unfold sympy_to_latex
    rw [if_pos hC, hcoeff]
    simp only
    rw [if_neg (by rw [h1]; exact Bool.false_ne_true),
      if_neg (by rw [h2]; exact Bool.false_ne_true), h3]

/-- Witness for the claim-C8 theorem: the five cases on the concrete
model — `x`, `x + C`, `x - C`, `x + 2C`, `x - 2C`. -/
theorem sympy_to_latex_cases_witness :
    sympy_to_latex crender [(1, [(1, 1)])] = crender.latex [(1, [(1, 1)])] ∧
    sympy_to_latex crender [(1, [(0, 1)]), (1, [(1, 1)])]
      = crender.latex (crender.subsC0 [(1, [(0, 1)]), (1, [(1, 1)])]) ++ " + C" ∧
    sympy_to_latex crender [(-1, [(0, 1)]), (1, [(1, 1)])]
      = crender.latex (crender.subsC0 [(-1, [(0, 1)]), (1, [(1, 1)])]) ++ " - C" ∧
    sympy_to_latex crender [(2, [(0, 1)]), (1, [(1, 1)])]
      = crender.latex (crender.subsC0 [(2, [(0, 1)]), (1, [(1, 1)])]) ++ " + "
        ++ crender.latex [(2, [])] ++ " C" ∧
    sympy_to_latex crender [(-2, [(0, 1)]), (1, [(1, 1)])]
      = crender.latex (crender.subsC0 [(-2, [(0, 1)]), (1, [(1, 1)])]) ++ " "
        ++ crender.latex [(-2, [])] ++ " C" :=
  ⟨(sympy_to_latex_cases crender [(1, [(1, 1)])]).1 (by decide),
   ((sympy_to_latex_cases crender [(1, [(0, 1)]), (1, [(1, 1)])]).2.1
      [(1, [])] (by decide) (by rfl) (by rfl)).1,
   (sympy_to_latex_cases crender [(-1, [(0, 1)]), (1, [(1, 1)])]).2.2.1
      [(-1, [])] (by decide) (by rfl) (by rfl) (by rfl),
   (sympy_to_latex_cases crender [(2, [(0, 1)]), (1, [(1, 1)])]).2.2.2.1
      [(2, [])] (by decide) (by rfl) (by rfl) (by rfl) (by rfl),
   (sympy_to_latex_cases crender [(-2, [(0, 1)]), (1, [(1, 1)])]).2.2.2.2
      [(-2, [])] (by decide) (by rfl) (by rfl) (by rfl) (by rfl)⟩

/-- Counterexample to claim C9 as stated: for `C**2` (`C` appears only
nonlinearly) no exception occurs — `coeff(C, 1)` is `0`, the sign test
`0 > 0` is `False` — and the function returns `"0 0 C"`, not the default
rendering `"C^2"` of the whole expression. -/
theorem sympy_to_latex_nonlinear_counterexample :
    sympy_to_latex crender [(1, [(constC, 2)])] = "0 0 C" ∧
    crender.latex [(1, [(constC, 2)])] = "C^2" ∧
    sympy_to_latex crender [(1, [(constC, 2)])]
      ≠ crender.latex [(1, [(constC, 2)])] :=
  ⟨by rfl, by rfl, by decide⟩

/-- Amended claim C9: when the coefficient sign comparison raises (a
symbolic coefficient), the exception is caught and the function returns
`str(expr)` — the plain string form of the whole expression, not its
LaTeX rendering — and no exception propagates (the embedding is total);
a nonlinear appearance of `C` need not reach the exception path at all
(see the counterexample, where `C**2` yields `"0 0 C"`). -/
theorem sympy_to_latex_exception_path {E : Type} (M : RenderModel E) (e cc : E)
    (h0 : constC ∈ M.freeSymbols e) (hcoeff : M.coeffC1 e = some cc)
    (h1 : M.eqInt cc 1 = false) (h2 : M.eqInt cc (-1) = false)
    (h3 : M.gtZero cc = none) :
    sympy_to_latex M e = M.toStr e := by
  unfold sympy_to_latex
  rw [if_pos h0, hcoeff]
  simp only
  rw [if_neg (by rw [h1]; exact Bool.false_ne_true),
    if_neg (by rw [h2]; exact Bool.false_ne_true), h3]

/-- Witness for the amended claim-C9 theorem: `C*x` has symbolic
coefficient `x`, the comparison raises, and the result is the plain
string `"C*x"`. -/
theorem sympy_to_latex_exception_path_witness :
    sympy_to_latex crender [(1, [(0, 1), (1, 1)])]
      = crender.toStr [(1, [(0, 1), (1, 1)])] :=
  sympy_to_latex_exception_path crender [(1, [(0, 1), (1, 1)])] [(1, [(1, 1)])]
    (by decide) (by rfl) (by rfl) (by rfl) (by rfl)

/- ### Scanner metatheory for claim C6. -/

theorem startsList_iff (pat s : List Char) :
    startsList pat s = true ↔ ∃ v, s = pat ++ v := by
  induction pat generalizing s with
  | nil => simp [startsList]
  | cons p ps ih =>
    cases s with
    | nil => simp [startsList]
    | cons c cs =>
      simp only [startsList]
      by_cases hpc : p = c
      · subst hpc
        rw [if_pos rfl, ih]
        constructor
        · rintro ⟨v, hv⟩; exact ⟨v, by rw [hv]; rfl⟩
        · rintro ⟨v, hv⟩
          simp only [List.cons_append, List.cons.injEq] at hv
          exact ⟨v, hv.2⟩
      · rw [if_neg hpc]
        constructor
        · intro h; simp at h
        · rintro ⟨v, hv⟩
          simp only [List.cons_append, List.cons.injEq] at hv
          exact absurd hv.1.symm hpc

theorem hasSubList_iff (pat s : List Char) :
    hasSubList pat s = true ↔ ∃ u v, s = u ++ pat ++ v := by
  induction s with
  | nil =>
    show startsList pat [] = true ↔ _
    rw [startsList_iff]
    constructor
    · rintro ⟨v, hv⟩; exact ⟨[], v, by simpa using hv⟩
    · rintro ⟨u, v, huv⟩
      rw [List.append_assoc] at huv
      refine ⟨v, ?_⟩
      rcases List.append_eq_nil.mp huv.symm with ⟨hu, hrest⟩
      rw [hrest]
  | cons c cs ih =>
    simp only [hasSubList, Bool.or_eq_true]
    constructor
    · rintro (h | h)
      · obtain ⟨v, hv⟩ := (startsList_iff pat (c :: cs)).mp h
        exact ⟨[], v, by simpa using hv⟩
      · obtain ⟨u, v, huv⟩ := ih.mp h
        exact ⟨c :: u, v, by rw [huv]; rfl⟩
    · rintro ⟨u, v, huv⟩
      cases u with
      | nil =>
        left
        rw [startsList_iff]
        exact ⟨v, by simpa using huv⟩
      | cons u0 us =>
        right
        apply ih.mpr
        refine ⟨us, v, ?_⟩
        simp only [List.cons_append, List.cons.injEq] at huv
        exact huv.2

theorem hasSub_cons (pat s : List Char) (c : Char)
    (h : hasSubList pat s = true) : hasSubList pat (c :: s) = true := by
  simp [hasSubList, h]

theorem hasSub_append_left (x pat s : List Char)
    (h : hasSubList pat s = true) : hasSubList pat (x ++ s) = true := by
  induction x with
  | nil => exact h
  | cons c xs ih => exact hasSub_cons pat (xs ++ s) c ih

theorem ciEqc_refl (c : Char) : ciEqc c c = true := by
  simp [ciEqc]

theorem ciStrip_self_append (p w : List Char) : ciStrip p (p ++ w) = some w := by
  induction p with
  | nil => rfl
  | cons c ps ih =>
    show ciStrip (c :: ps) (c :: (ps ++ w)) = some w
    unfold ciStrip
    rw [if_pos (ciEqc_refl c)]
    exact ih

theorem ciStrip_append {p l r : List Char} (h : ciStrip p l = some r) :
    ∃ s0, l = s0 ++ r ∧ s0.length = p.length ∧
      ∀ i, i < p.length → ciEqc (p.getD i '?') (s0.getD i '?') = true := by
  induction p generalizing l with
  | nil =>
    refine ⟨[], ?_, rfl, fun i hi => absurd hi (by simp)⟩
    show l = r
    exact Option.some.inj h
  | cons p0 ps ih =>
    cases l with
    | nil => exact absurd h (by simp [ciStrip])
    | cons c cs =>
      unfold ciStrip at h
      by_cases hc : ciEqc p0 c = true
      · rw [if_pos hc] at h
        obtain ⟨s0, hcs, hlen, hagree⟩ := ih h
        refine ⟨c :: s0, by rw [hcs]; rfl, by simp [hlen], ?_⟩
        intro i hi
        cases i with
        | zero => exact hc
        | succ i =>
          simp only [List.getD_cons_succ]
          exact hagree i (by simpa using hi)
      · rw [if_neg hc] at h
        exact absurd h (by simp)

theorem ciStrip_none_of_mismatch :
    ∀ (p s w : List Char) (i : Nat), i < p.length → i < s.length →
      ciEqc (p.getD i '?') (s.getD i '?') = false → ciStrip p (s ++ w) = none := by
  intro p
  induction p with
  | nil => intro s w i hi; simp at hi
  | cons p0 ps ih =>
    intro s w i hi hs hmis
    cases s with
    | nil => simp at hs
    | cons c cs =>
      show ciStrip (p0 :: ps) (c :: (cs ++ w)) = none
      unfold ciStrip
      cases i with
      | zero =>
        simp only [List.getD_cons_zero] at hmis
        rw [if_neg (by rw [hmis]; exact Bool.false_ne_true)]
      | succ i =>
        by_cases hc : ciEqc p0 c = true
        · rw [if_pos hc]
          exact ih cs w i (by simpa using hi) (by simpa using hs)
            (by simpa using hmis)
        · rw [if_neg hc]

theorem csStrip_iff (p : List Char) : ∀ (l r : List Char),
    csStrip p l = some r ↔ l = p ++ r := by
  induction p with
  | nil =>
    intro l r
    show some l = some r ↔ l = r
    simp
  | cons p0 ps ih =>
    intro l r
    cases l with
    | nil => simp [csStrip]
    | cons c cs =>
      unfold csStrip
      by_cases hc : p0 = c
      · subst hc
        rw [if_pos rfl, ih]
        simp
      · rw [if_neg hc]
        simp only [List.cons_append, List.cons.injEq]
        constructor
        · intro h; simp at h
        · rintro ⟨h, -⟩; exact absurd h.symm hc

theorem csStrip_none_of_head {p0 c : Char} (ps cs : List Char) (h : p0 ≠ c) :
    csStrip (p0 :: ps) (c :: cs) = none := by
  unfold csStrip
  rw [if_neg h]

/-- Fuel irrelevance of the scanner: any fuel at least the input length
gives the same result, provided matches consume a nonempty prefix. -/
theorem reScanF_fuel (run : MatchFun)
    (hspan : ∀ prev l out prev2 rest, run prev l = some (out, prev2, rest) →
      ∃ d, d ≠ [] ∧ l = d ++ rest) :
    ∀ (n : Nat) (l : List Char) (m : Nat) (prev : Option Char),
      l.length ≤ n → l.length ≤ m → reScanF run n prev l = reScanF run m prev l := by
  intro n
  induction n with
  | zero =>
    intro l m prev hn hm
    cases l with
    | nil => cases m <;> rfl
    | cons c cs => simp at hn
  | succ n ih =>
    intro l m prev hn hm
    cases l with
    | nil => cases m <;> rfl
    | cons c cs =>
      cases m with
      | zero => simp at hm
      | succ m =>
        show reScanF run (n + 1) prev (c :: cs) = reScanF run (m + 1) prev (c :: cs)
        unfold reScanF
        cases hr : run prev (c :: cs) with
        | none =>
          simp only
          congr 1
          exact ih cs m (some c) (by simp at hn; omega) (by simp at hm; omega)
        | some t =>
          obtain ⟨out, prev2, rest⟩ := t
          simp only
          congr 1
          obtain ⟨d, hd, hl⟩ := hspan prev (c :: cs) out prev2 rest hr
          have hlen := congrArg List.length hl
          simp only [List.length_cons, List.length_append] at hlen
          have hdpos : 1 ≤ d.length := by
            cases d with
            | nil => exact absurd rfl hd
            | cons x xs => simp
          exact ih rest m prev2 (by simp at hn; omega) (by simp at hm; omega)

theorem reScan_nil (run : MatchFun) (prev : Option Char) :
    reScan run prev [] = [] := rfl

theorem reScan_cons_none (run : MatchFun) (prev : Option Char) (c : Char)
    (cs : List Char) (h : run prev (c :: cs) = none) :
    reScan run prev (c :: cs) = c :: reScan run (some c) cs := by
  show reScanF run (cs.length + 1) prev (c :: cs) = _
  unfold reScanF
  rw [h]
  rfl

theorem reScan_cons_some (run : MatchFun)
    (hspan : ∀ prev l out prev2 rest, run prev l = some (out, prev2, rest) →
      ∃ d, d ≠ [] ∧ l = d ++ rest)
    (prev : Option Char) (c : Char) (cs out : List Char) (prev2 : Option Char)
    (rest : List Char) (h : run prev (c :: cs) = some (out, prev2, rest)) :
    reScan run prev (c :: cs) = out ++ reScan run prev2 rest := by
  show reScanF run (cs.length + 1) prev (c :: cs) = _
  unfold reScanF
  rw [h]
  simp only
  congr 1
  obtain ⟨d, hd, hl⟩ := hspan prev (c :: cs) out prev2 rest h
  have hlen := congrArg List.length hl
  simp only [List.length_cons, List.length_append] at hlen
  have hdpos : 1 ≤ d.length := by
    cases d with
    | nil => exact absurd rfl hd
    | cons x xs => simp
  exact reScanF_fuel run hspan cs.length rest rest.length prev2 (by omega) (le_refl _)

/- ### Matcher facts. -/

theorem fnameRun_elim {bad : Char → Bool} {name : List Char} {prev : Option Char}
    {l out : List Char} {prev2 : Option Char} {rest : List Char}
    (h : fnameRun bad name prev l = some (out, prev2, rest)) :
    out = '\\' :: (name ++ ['(']) ∧ prev2 = some '(' ∧
      ciStrip (name ++ ['(']) l = some rest := by
  unfold fnameRun at h
  by_cases hb : prevBad bad prev = true
  · rw [if_pos hb] at h
    simp at h
  · rw [if_neg hb] at h
    cases hcs : ciStrip (name ++ ['(']) l with
    | none => rw [hcs] at h; simp at h
    | some r =>
      rw [hcs] at h
      simp only [Option.some.injEq, Prod.mk.injEq] at h
      refine ⟨h.1.symm, h.2.1.symm, ?_⟩
      rw [← h.2.2]

theorem fnameRun_spanned (bad : Char → Bool) (name : List Char) :
    ∀ (prev : Option Char) (l out : List Char) (prev2 : Option Char) (rest : List Char),
      fnameRun bad name prev l = some (out, prev2, rest) →
      ∃ d, d ≠ [] ∧ l = d ++ rest := by
  intro prev l out prev2 rest h
  obtain ⟨-, -, hcs⟩ := fnameRun_elim h
  obtain ⟨s0, hl, hlen, -⟩ := ciStrip_append hcs
  refine ⟨s0, ?_, hl⟩
  intro h0
  rw [h0] at hlen
  simp at hlen

theorem fnameRun_none_of_prevBad {bad : Char → Bool} {p : Char} (name : List Char)
    (hb : bad p = true) (l : List Char) : fnameRun bad name (some p) l = none := by
  unfold fnameRun
  rw [if_pos (show prevBad bad (some p) = true from hb)]

theorem fnameRun_none_of_mismatch {bad : Char → Bool} {name : List Char}
    {prev : Option Char} {s : List Char} (w : List Char)
    (hmis : ∃ i, i < (name ++ ['(']).length ∧ i < s.length ∧
      ciEqc ((name ++ ['(']).getD i '?') (s.getD i '?') = false) :
    fnameRun bad name prev (s ++ w) = none := by
  unfold fnameRun
  by_cases hb : prevBad bad prev = true
  · rw [if_pos hb]
  · rw [if_neg hb]
    obtain ⟨i, h1, h2, h3⟩ := hmis
    rw [ciStrip_none_of_mismatch _ s w i h1 h2 h3]

theorem fnameRun_match {bad : Char → Bool} {name : List Char} {prev : Option Char}
    (hb : ¬ prevBad bad prev = true)
    (w : List Char) :
    fnameRun bad name prev ((name ++ ['(']) ++ w)
      = some ('\\' :: (name ++ ['(']), some '(', w) := by
  unfold fnameRun
  rw [if_neg hb, ciStrip_self_append]

theorem arcTry_elim : ∀ {ns : List (List Char)} {r n r2 : List Char},
    arcTry ns r = some (n, r2) → n ∈ ns ∧ csStrip n r = some r2 := by
  intro ns
  induction ns with
  | nil => intro r n r2 h; simp [arcTry] at h
  | cons m ms ih =>
    intro r n r2 h
    unfold arcTry at h
    cases hcs : csStrip m r with
    | none =>
      rw [hcs] at h
      obtain ⟨hmem, hc⟩ := ih h
      exact ⟨by simp [hmem], hc⟩
    | some rr =>
      rw [hcs] at h
      cases rr with
      | nil =>
        have h2 : some (m, ([] : List Char)) = some (n, r2) := h
        simp only [Option.some.injEq, Prod.mk.injEq] at h2
        obtain ⟨h3, h4⟩ := h2
        rw [← h3, ← h4]
        exact ⟨by simp, hcs⟩
      | cons c cs2 =>
        have h2 : (if isWordChar c = true then none
            else some (m, c :: cs2)) = some (n, r2) := h
        by_cases hw : isWordChar c = true
        · rw [if_pos hw] at h2
          simp at h2
        · rw [if_neg hw] at h2
          simp only [Option.some.injEq, Prod.mk.injEq] at h2
          obtain ⟨h3, h4⟩ := h2
          rw [← h3, ← h4]
          exact ⟨by simp, hcs⟩

theorem arcRun_elim {prev : Option Char} {l out : List Char} {prev2 : Option Char}
    {rest : List Char} (h : arcRun prev l = some (out, prev2, rest)) :
    ∃ n, n ∈ arcNames ∧ l = ('\\' :: 'a' :: 'r' :: 'c' :: '\\' :: n) ++ rest := by
  unfold arcRun at h
  cases hcs : csStrip ('\\' :: 'a' :: 'r' :: 'c' :: ['\\']) l with
  | none => rw [hcs] at h; simp at h
  | some r =>
    rw [hcs] at h
    have hA : (match arcTry arcNames r with
        | some (n, r2) =>
          some ('\\' :: 'a' :: 'r' :: 'c' :: n, some (n.getLastD 'c'), r2)
        | none => none) = some (out, prev2, rest) := h
    cases htry : arcTry arcNames r with
    | none => rw [htry] at hA; simp at hA
    | some t =>
      obtain ⟨n, r2⟩ := t
      rw [htry] at hA
      have h : ('\\' :: 'a' :: 'r' :: 'c' :: n, some (n.getLastD 'c'), r2)
          = (out, prev2, rest) := Option.some.inj hA
      simp only [Prod.mk.injEq] at h
      obtain ⟨hmem, hstrip⟩ := arcTry_elim htry
      have hl : l = ('\\' :: 'a' :: 'r' :: 'c' :: ['\\']) ++ r := (csStrip_iff _ l r).mp hcs
      have hr : r = n ++ r2 := (csStrip_iff n r r2).mp hstrip
      refine ⟨n, hmem, ?_⟩
      rw [hl, hr, ← h.2.2]
      simp

theorem arcRun_spanned :
    ∀ (prev : Option Char) (l out : List Char) (prev2 : Option Char) (rest : List Char),
      arcRun prev l = some (out, prev2, rest) → ∃ d, d ≠ [] ∧ l = d ++ rest := by
  intro prev l out prev2 rest h
  obtain ⟨n, -, hl⟩ := arcRun_elim h
  exact ⟨_, by simp, hl⟩

theorem arcRun_none_of_head {c : Char} (hc : ¬ c = '\\') (prev : Option Char)
    (cs : List Char) : arcRun prev (c :: cs) = none := by
  unfold arcRun
  rw [csStrip_none_of_head _ _ (fun h => hc h.symm)]

/- ### The generic emit and survival lemmas. -/

/-- If no position strictly inside `t` can start a match, the scanner
copies the rest of `t` verbatim and continues after it. -/
theorem reScan_emit (run : MatchFun) (t : List Char)
    (hmid : ∀ t1 c t2 w, t = t1 ++ [c] ++ t2 → t2 ≠ [] →
      run (some c) (t2 ++ w) = none) :
    ∀ (t2 t1 : List Char) (c : Char) (v : List Char), t = t1 ++ [c] ++ t2 →
      reScan run (some c) (t2 ++ v) = t2 ++ reScan run (some (t.getLastD '?')) v := by
  intro t2
  induction t2 with
  | nil =>
    intro t1 c v ht
    have hlast : t.getLastD '?' = c := by
      rw [ht]
      simp
    rw [hlast]
    simp
  | cons c2 t2x ih =>
    intro t1 c v ht
    have hnone : run (some c) ((c2 :: t2x) ++ v) = none :=
      hmid t1 c (c2 :: t2x) v ht (by simp)
    show reScan run (some c) (c2 :: (t2x ++ v))
      = (c2 :: t2x) ++ reScan run (some (t.getLastD '?')) v
    rw [reScan_cons_none run (some c) c2 (t2x ++ v) hnone]
    rw [ih (t1 ++ [c]) c2 v (by rw [ht]; simp)]
    rfl

/-- Survival: if `t` occurs in the input, the matcher can never match at
or into the occurrence, and matches elsewhere jump over it, then `t`
occurs in the output of the scan. -/
theorem reScan_survive (run : MatchFun) (t : List Char) (ht : t ≠ [])
    (hspan : ∀ prev l out prev2 rest, run prev l = some (out, prev2, rest) →
      ∃ d, d ≠ [] ∧ l = d ++ rest)
    (hmid0 : ∀ prev w, run prev (t ++ w) = none)
    (hmid : ∀ t1 c t2 w, t = t1 ++ [c] ++ t2 → t2 ≠ [] →
      run (some c) (t2 ++ w) = none)
    (hpre : ∀ prev u w out prev2 rest, u ≠ [] →
      run prev (u ++ (t ++ w)) = some (out, prev2, rest) →
      t.length + w.length ≤ rest.length) :
    ∀ (u : List Char) (prev : Option Char) (v : List Char),
      hasSubList t (reScan run prev (u ++ t ++ v)) = true := by
  have hbase : ∀ (prev : Option Char) (v : List Char),
      hasSubList t (reScan run prev (t ++ v)) = true := by
    intro prev v
    cases hT : t with
    | nil => exact absurd hT ht
    | cons c0 ts =>
      have hnone : run prev (c0 :: (ts ++ v)) = none := by
        have h0 := hmid0 prev v
        rw [hT] at h0
        exact h0
      show hasSubList (c0 :: ts) (reScan run prev (c0 :: (ts ++ v))) = true
      rw [reScan_cons_none run prev c0 (ts ++ v) hnone]
      rw [reScan_emit run t hmid ts [] c0 v (by rw [hT]; rfl)]
      exact hasSub_of_starts (startsList_refl_append (c0 :: ts) _)
  suffices H : ∀ (n : Nat) (u : List Char), u.length ≤ n →
      ∀ (prev : Option Char) (v : List Char),
        hasSubList t (reScan run prev (u ++ t ++ v)) = true by
    intro u prev v
    exact H u.length u (le_refl _) prev v
  intro n
  induction n with
  | zero =>
    intro u hu prev v
    have hu0 : u = [] := List.eq_nil_of_length_eq_zero (Nat.le_zero.mp hu)
    subst hu0
    exact hbase prev v
  | succ n ih =>
    intro u hu prev v
    cases u with
    | nil => exact hbase prev v
    | cons c ux =>
      have hshape : (c :: ux) ++ t ++ v = c :: (ux ++ t ++ v) := by simp
      rw [hshape]
      cases hr : run prev (c :: (ux ++ t ++ v)) with
      | none =>
        rw [reScan_cons_none run prev c (ux ++ t ++ v) hr]
        apply hasSub_cons
        exact ih ux (by simp at hu; omega) (some c) v
      | some tr =>
        obtain ⟨out, prev2, rest⟩ := tr
        rw [reScan_cons_some run hspan prev c (ux ++ t ++ v) out prev2 rest hr]
        have hrA : run prev ((c :: ux) ++ (t ++ v)) = some (out, prev2, rest) := by
          rw [show (c :: ux) ++ (t ++ v) = c :: (ux ++ t ++ v) by simp]
          exact hr
        have hb : t.length + v.length ≤ rest.length :=
          hpre prev (c :: ux) v out prev2 rest (by simp) hrA
        obtain ⟨d, hd, hl⟩ := hspan prev (c :: (ux ++ t ++ v)) out prev2 rest hr
        have hdle : d.length ≤ (c :: ux).length := by
          have hlen := congrArg List.length hl
          simp only [List.length_cons, List.length_append] at hlen
          simp only [List.length_cons]
          omega
        have hrest : rest = List.drop d.length (c :: ux) ++ (t ++ v) := by
          have h1 : rest = List.drop d.length (d ++ rest) := by
            rw [List.drop_left]
          rw [h1, ← hl]
          rw [show c :: (ux ++ t ++ v) = (c :: ux) ++ (t ++ v) by simp]
          rw [List.drop_append_of_le_length hdle]
        have hdpos : 1 ≤ d.length := by
          cases d with
          | nil => exact absurd rfl hd
          | cons x xs => simp
        apply hasSub_append_left
        have hlen2 : (List.drop d.length (c :: ux)).length ≤ n := by
          simp only [List.length_drop, List.length_cons]
          simp only [List.length_cons] at hu
          omega
        have := ih (List.drop d.length (c :: ux)) hlen2 prev2 v
        rw [show List.drop d.length (c :: ux) ++ t ++ v
            = List.drop d.length (c :: ux) ++ (t ++ v) by simp] at this
        rw [hrest]
        exact this

/-- Rewrite: if `name ++ "("` occurs in the input, the inverse-name
substitution pass leaves the output containing the backslashed form
`'\' :: name ++ "("` (either the pass inserts the backslash, or the
occurrence was already preceded by one — the lookbehind context). -/
theorem reScan_rewrite (name : List Char) (hname : name ≠ [])
    (hmid : ∀ t1 c t2 w, (name ++ ['(']) = t1 ++ [c] ++ t2 → t2 ≠ [] →
      fnameRun badBS name (some c) (t2 ++ w) = none)
    (hpre : ∀ prev u w out prev2 rest, u ≠ [] →
      fnameRun badBS name prev (u ++ ((name ++ ['(']) ++ w)) = some (out, prev2, rest) →
      (name ++ ['(']).length + w.length ≤ rest.length) :
    ∀ (u : List Char) (prev : Option Char) (v : List Char),
      hasSubList ('\\' :: (name ++ ['(']))
        (ctxList prev ++ reScan (fnameRun badBS name) prev (u ++ (name ++ ['(']) ++ v))
        = true := by
  obtain ⟨n0, ns, hn⟩ : ∃ n0 ns, name = n0 :: ns := by
    cases name with
    | nil => exact absurd rfl hname
    | cons n0 ns => exact ⟨n0, ns, rfl⟩
  have hshape : ∀ v : List Char, (name ++ ['(']) ++ v = n0 :: ((ns ++ ['(']) ++ v) := by
    intro v
    rw [hn]
    rfl
  have hbase : ∀ (prev : Option Char) (v : List Char),
      hasSubList ('\\' :: (name ++ ['(']))
        (ctxList prev ++ reScan (fnameRun badBS name) prev ((name ++ ['(']) ++ v))
        = true := by
    intro prev v
    by_cases hb : prevBad badBS prev = true
    · obtain ⟨p, hp⟩ : ∃ p, prev = some p := by
        cases prev with
        | none => exact absurd hb (by simp [prevBad])
        | some p => exact ⟨p, rfl⟩
      subst hp
      have hbp : badBS p = true := hb
      have hpbs : p = '\\' := of_decide_eq_true hbp
      have hnone : fnameRun badBS name (some p) (n0 :: ((ns ++ ['(']) ++ v)) = none := by
        have h0 := fnameRun_none_of_prevBad name hbp ((name ++ ['(']) ++ v)
        rw [hshape v] at h0
        exact h0
      rw [hshape v, reScan_cons_none _ _ _ _ hnone]
      rw [reScan_emit (fnameRun badBS name) (name ++ ['(']) hmid (ns ++ ['(']) [] n0 v
        (by rw [hn]; rfl)]
      subst hpbs
      have hfin : ctxList (some '\\') ++
          (n0 :: ((ns ++ ['(']) ++ reScan (fnameRun badBS name)
            (some ((name ++ ['(']).getLastD '?')) v))
          = ('\\' :: (name ++ ['('])) ++ (reScan (fnameRun badBS name)
            (some ((name ++ ['(']).getLastD '?')) v) := by
        rw [hn]
        rfl
      rw [hfin]
      exact hasSub_of_starts (startsList_refl_append _ _)
    · have hmatch := @fnameRun_match badBS name prev hb v
      have hmatch2 : fnameRun badBS name prev (n0 :: ((ns ++ ['(']) ++ v))
          = some ('\\' :: (name ++ ['(']), some '(', v) := by
        rw [← hshape v]
        exact hmatch
      rw [hshape v, reScan_cons_some _ (fnameRun_spanned badBS name) _ _ _ _ _ _ hmatch2]
      exact hasSub_append_pat (ctxList prev) ('\\' :: (name ++ ['('])) _
  suffices H : ∀ (n : Nat) (u : List Char), u.length ≤ n →
      ∀ (prev : Option Char) (v : List Char),
        hasSubList ('\\' :: (name ++ ['(']))
          (ctxList prev ++ reScan (fnameRun badBS name) prev (u ++ (name ++ ['(']) ++ v))
          = true by
    intro u prev v
    exact H u.length u (le_refl _) prev v
  intro n
  induction n with
  | zero =>
    intro u hu prev v
    have hu0 : u = [] := List.eq_nil_of_length_eq_zero (Nat.le_zero.mp hu)
    subst hu0
    exact hbase prev v
  | succ n ih =>
    intro u hu prev v
    cases u with
    | nil => exact hbase prev v
    | cons c ux =>
      have hshape2 : (c :: ux) ++ (name ++ ['(']) ++ v
          = c :: (ux ++ (name ++ ['(']) ++ v) := by simp
      rw [hshape2]
      cases hr : fnameRun badBS name prev (c :: (ux ++ (name ++ ['(']) ++ v)) with
      | none =>
        rw [reScan_cons_none _ _ _ _ hr]
        have hih := ih ux (by simp only [List.length_cons] at hu; omega) (some c) v
        exact hasSub_append_left (ctxList prev) _ _ hih
      | some tr =>
        obtain ⟨out, prev2, rest⟩ := tr
        rw [reScan_cons_some _ (fnameRun_spanned badBS name) _ _ _ _ _ _ hr]
        obtain ⟨hout, hprev2, -⟩ := fnameRun_elim hr
        have hrA : fnameRun badBS name prev ((c :: ux) ++ ((name ++ ['(']) ++ v))
            = some (out, prev2, rest) := by
          rw [show (c :: ux) ++ ((name ++ ['(']) ++ v)
            = c :: (ux ++ (name ++ ['(']) ++ v) by simp]
          exact hr
        have hb2 : (name ++ ['(']).length + v.length ≤ rest.length :=
          hpre prev (c :: ux) v out prev2 rest (by simp) hrA
        obtain ⟨d, hd, hl⟩ := fnameRun_spanned badBS name prev _ out prev2 rest hr
        have hdle : d.length ≤ (c :: ux).length := by
          have hlen := congrArg List.length hl
          simp only [List.length_cons, List.length_append, List.length_nil] at hlen hb2 ⊢
          omega
        have hrest : rest = List.drop d.length (c :: ux) ++ ((name ++ ['(']) ++ v) := by
          have h1 : rest = List.drop d.length (d ++ rest) := by
            rw [List.drop_left]
          rw [h1, ← hl]
          rw [show c :: (ux ++ (name ++ ['(']) ++ v)
            = (c :: ux) ++ ((name ++ ['(']) ++ v) by simp]
          rw [List.drop_append_of_le_length hdle]
        have hdpos : 1 ≤ d.length := by
          cases d with
          | nil => exact absurd rfl hd
          | cons x xs => simp
        have hlen2 : (List.drop d.length (c :: ux)).length ≤ n := by
          simp only [List.length_drop, List.length_cons]
          simp only [List.length_cons] at hu
          omega
        have hih := ih (List.drop d.length (c :: ux)) hlen2 prev2 v
        rw [show List.drop d.length (c :: ux) ++ (name ++ ['(']) ++ v
            = List.drop d.length (c :: ux) ++ ((name ++ ['(']) ++ v) by simp] at hih
        rw [← hrest] at hih
        subst hout
        subst hprev2
        have hfin : ctxList prev ++
            (('\\' :: (name ++ ['('])) ++ reScan (fnameRun badBS name) (some '(') rest)
            = (ctxList prev ++ ('\\' :: name)) ++
              (ctxList (some '(') ++ reScan (fnameRun badBS name) (some '(') rest) := by
          simp [ctxList]
        rw [hfin]
        exact hasSub_append_left _ _ _ hih


/- ### Bridging the executable overlap conditions to the scanner
hypotheses. -/

/-- A start mismatch excludes a match beginning at the head of the
target. -/
theorem fnameStartB_elim {name T : List Char} (h : fnameStartB name T = true)
    (bad : Char → Bool) (prev : Option Char) (w : List Char) :
    fnameRun bad name prev (T ++ w) = none := by
  unfold fnameStartB at h
  rw [List.any_eq_true] at h
  obtain ⟨i, hmem, hi⟩ := h
  rw [List.mem_range] at hmem
  obtain ⟨h1, h2⟩ := lt_min_iff.mp hmem
  have hi' : ciEqc ((name ++ ['(']).getD i '?') (T.getD i '?') = false := by
    cases hc : ciEqc ((name ++ ['(']).getD i '?') (T.getD i '?') with
    | false => rfl
    | true => rw [hc] at hi; exact absurd hi (by decide)
  exact fnameRun_none_of_mismatch w ⟨i, h1, h2, hi'⟩

/-- The interior condition excludes a match beginning strictly inside
the target. -/
theorem fnameMidB_elim {bad : Char → Bool} {name T : List Char}
    (h : fnameMidB bad name T = true) :
    ∀ t1 c t2 w, T = t1 ++ [c] ++ t2 → t2 ≠ [] →
      fnameRun bad name (some c) (t2 ++ w) = none := by
  intro t1 c t2 w hdec hne
  have hlenT : T.length = t1.length + 1 + t2.length := by
    rw [hdec]
    simp only [List.length_append, List.length_cons, List.length_nil]
  have hjlt : t1.length + 1 < T.length := by
    have h2 : 0 < t2.length := List.length_pos.mpr hne
    omega
  unfold fnameMidB at h
  rw [List.all_eq_true] at h
  have hj := h (t1.length + 1) (List.mem_range.mpr hjlt)
  have hj2 : (bad (T.getD (t1.length + 1 - 1) '?') ||
      (List.range (min (name ++ ['(']).length (T.length - (t1.length + 1)))).any
        (fun i => !(ciEqc ((name ++ ['(']).getD i '?')
          (T.getD (t1.length + 1 + i) '?')))) = true := hj
  cases hbb : bad (T.getD (t1.length + 1 - 1) '?') with
  | true =>
    have hbad := hbb
    have hc : T.getD (t1.length + 1 - 1) '?' = c := by
      rw [hdec, List.append_assoc,
        List.getD_append_right t1 ([c] ++ t2) '?' (t1.length + 1 - 1) (by omega)]
      have hx : t1.length + 1 - 1 - t1.length = 0 := by omega
      rw [hx]
      rfl
    rw [hc] at hbad
    exact fnameRun_none_of_prevBad name hbad _
  | false =>
    rw [hbb, Bool.false_or] at hj2
    rw [List.any_eq_true] at hj2
    obtain ⟨i, hmem, hi⟩ := hj2
    rw [List.mem_range] at hmem
    obtain ⟨hm1, hm2⟩ := lt_min_iff.mp hmem
    have hieq : T.getD (t1.length + 1 + i) '?' = t2.getD i '?' := by
      rw [hdec, List.append_assoc,
        List.getD_append_right t1 ([c] ++ t2) '?' (t1.length + 1 + i) (by omega)]
      have hx : t1.length + 1 + i - t1.length = i + 1 := by omega
      rw [hx]
      rfl
    have hi' : ciEqc ((name ++ ['(']).getD i '?') (t2.getD i '?') = false := by
      rw [← hieq]
      cases hc2 : ciEqc ((name ++ ['(']).getD i '?') (T.getD (t1.length + 1 + i) '?') with
      | false => rfl
      | true => rw [hc2] at hi; exact absurd hi (by decide)
    exact fnameRun_none_of_mismatch w ⟨i, hm1, by omega, hi'⟩

/-- The overlap condition forces any match that starts before the target
to end before it: the span stays inside the prefix. -/
theorem fnamePreB_elim {name T : List Char} (h : fnamePreB name T = true)
    (bad : Char → Bool) :
    ∀ prev u w out prev2 rest, u ≠ [] →
      fnameRun bad name prev (u ++ (T ++ w)) = some (out, prev2, rest) →
      T.length + w.length ≤ rest.length := by
  intro prev u w out prev2 rest hu hr
  obtain ⟨-, -, hcs⟩ := fnameRun_elim hr
  obtain ⟨s0, hl, hslen, hagree⟩ := ciStrip_append hcs
  have hltot : u.length + (T.length + w.length) = s0.length + rest.length := by
    have hlen := congrArg List.length hl
    simp only [List.length_append] at hlen
    omega
  by_cases hle : (name ++ ['(']).length ≤ u.length
  · omega
  · have hd0 : 0 < u.length := List.length_pos.mpr hu
    have hdlt : u.length < (name ++ ['(']).length := by omega
    unfold fnamePreB at h
    rw [List.all_eq_true] at h
    have hd := h u.length (List.mem_range.mpr hdlt)
    rw [if_neg (by omega : ¬ u.length = 0)] at hd
    rw [List.any_eq_true] at hd
    obtain ⟨i, hmem, hi⟩ := hd
    rw [List.mem_range] at hmem
    obtain ⟨hm1, hm2⟩ := lt_min_iff.mp hmem
    have hs0 : s0.getD (u.length + i) '?' = T.getD i '?' := by
      have h1 : (s0 ++ rest).getD (u.length + i) '?' = s0.getD (u.length + i) '?' :=
        List.getD_append s0 rest '?' (u.length + i) (by omega)
      rw [← hl, List.getD_append_right u (T ++ w) '?' (u.length + i) (by omega)] at h1
      have hx : u.length + i - u.length = i := by omega
      rw [hx, List.getD_append T w '?' i hm2] at h1
      exact h1.symm
    have hA := hagree (u.length + i) (by omega)
    rw [hs0] at hA
    rw [hA] at hi
    exact absurd hi (by decide)

/-- A backslash-free target admits no compound-pattern match at or
inside it. -/
theorem arcNoBSB_elim {T : List Char} (h : arcNoBSB T = true) (hT : T ≠ []) :
    (∀ prev w, arcRun prev (T ++ w) = none) ∧
    (∀ t1 c t2 w, T = t1 ++ [c] ++ t2 → t2 ≠ [] → arcRun (some c) (t2 ++ w) = none) := by
  unfold arcNoBSB at h
  rw [List.all_eq_true] at h
  have hnb : ∀ c ∈ T, ¬ c = '\\' := by
    intro c hc hceq
    have hb := h c hc
    rw [hceq] at hb
    exact absurd hb (by decide)
  constructor
  · intro prev w
    obtain ⟨c0, ts, hT0⟩ : ∃ c0 ts, T = c0 :: ts := by
      cases T with
      | nil => exact absurd rfl hT
      | cons c0 ts => exact ⟨c0, ts, rfl⟩
    rw [hT0]
    exact arcRun_none_of_head (hnb c0 (by rw [hT0]; exact List.mem_cons_self c0 ts)) prev _
  · intro t1 c t2 w hdec hne
    obtain ⟨c2, t2s, ht2⟩ : ∃ c2 t2s, t2 = c2 :: t2s := by
      cases t2 with
      | nil => exact absurd rfl hne
      | cons c2 t2s => exact ⟨c2, t2s, rfl⟩
    rw [ht2]
    refine arcRun_none_of_head (hnb c2 ?_) (some c) _
    rw [hdec, ht2]
    simp

/-- The compound overlap condition forces any compound match that
starts before the target to end before it. -/
theorem arcPreB_elim {T : List Char} (h : arcPreB T = true) :
    ∀ prev u w out prev2 rest, u ≠ [] →
      arcRun prev (u ++ (T ++ w)) = some (out, prev2, rest) →
      T.length + w.length ≤ rest.length := by
  intro prev u w out prev2 rest hu hr
  obtain ⟨n, hnmem, hl⟩ := arcRun_elim hr
  have hl' : u ++ (T ++ w) = arcSpan n ++ rest := hl
  have hall3 : ∀ m ∈ arcNames, m.length = 3 := by decide
  have hspanlen : (arcSpan n).length = 8 := by
    simp only [arcSpan, List.length_cons, hall3 n hnmem]
  have hltot : u.length + (T.length + w.length) = (arcSpan n).length + rest.length := by
    have hlen := congrArg List.length hl'
    simp only [List.length_append] at hlen
    omega
  by_cases hle : 8 ≤ u.length
  · omega
  · have hd0 : 0 < u.length := List.length_pos.mpr hu
    unfold arcPreB at h
    rw [List.all_eq_true] at h
    have hn2 := h n hnmem
    rw [List.all_eq_true] at hn2
    have hd := hn2 u.length (List.mem_range.mpr (by omega : u.length < (arcSpan n).length))
    rw [if_neg (by omega : ¬ u.length = 0)] at hd
    rw [List.any_eq_true] at hd
    obtain ⟨i, hmem, hi⟩ := hd
    rw [List.mem_range] at hmem
    obtain ⟨hm1, hm2⟩ := lt_min_iff.mp hmem
    have hsg : (arcSpan n).getD (u.length + i) '?' = T.getD i '?' := by
      have h1 : (arcSpan n ++ rest).getD (u.length + i) '?'
          = (arcSpan n).getD (u.length + i) '?' :=
        List.getD_append (arcSpan n) rest '?' (u.length + i) (by omega)
      rw [← hl', List.getD_append_right u (T ++ w) '?' (u.length + i) (by omega)] at h1
      have hx : u.length + i - u.length = i := by omega
      rw [hx, List.getD_append T w '?' i hm2] at h1
      exact h1.symm
    rw [hsg] at hi
    simp at hi

/- ### The three pass-level preservation lemmas. -/

/-- A target that the name pattern cannot touch survives one
function-name substitution pass. -/
theorem fname_survive (bad : Char → Bool) (name T : List Char) (hT : T ≠ [])
    (hA : fnameStartB name T = true) (hB : fnameMidB bad name T = true)
    (hC : fnamePreB name T = true) (prev : Option Char) (l : List Char)
    (hsub : hasSubList T l = true) :
    hasSubList T (reScan (fnameRun bad name) prev l) = true := by
  obtain ⟨u, v, huv⟩ := (hasSubList_iff T l).mp hsub
  subst huv
  exact reScan_survive (fnameRun bad name) T hT (fnameRun_spanned bad name)
    (fnameStartB_elim hA bad) (fnameMidB_elim hB) (fnamePreB_elim hC bad) u prev v

/-- A backslash-free target with the overlap condition survives the
compound-name substitution pass. -/
theorem arc_survive (T : List Char) (hT : T ≠ [])
    (hnb : arcNoBSB T = true) (hC : arcPreB T = true)
    (prev : Option Char) (l : List Char) (hsub : hasSubList T l = true) :
    hasSubList T (reScan arcRun prev l) = true := by
  obtain ⟨u, v, huv⟩ := (hasSubList_iff T l).mp hsub
  subst huv
  exact reScan_survive arcRun T hT arcRun_spanned
    (arcNoBSB_elim hnb hT).1 (arcNoBSB_elim hnb hT).2 (arcPreB_elim hC) u prev v

/-- The inverse-name pass on `name` turns every occurrence of
`name(` into one of `\name(`. -/
theorem fname_rewrite (name : List Char) (hname : name ≠ [])
    (hB : fnameMidB badBS name (name ++ ['(']) = true)
    (hC : fnamePreB name (name ++ ['(']) = true)
    (l : List Char) (hsub : hasSubList (name ++ ['(']) l = true) :
    hasSubList ('\\' :: (name ++ ['(']))
      (reScan (fnameRun badBS name) none l) = true := by
  obtain ⟨u, v, huv⟩ := (hasSubList_iff (name ++ ['(']) l).mp hsub
  subst huv
  exact reScan_rewrite name hname (fnameMidB_elim hB) (fnamePreB_elim hC badBS) u none v


/-- Every input containing `arcsin(` is repaired to an output containing
`\arcsin(`: the compound pass cannot touch the occurrence, the `arcsin`
pass rewrites it, and no later pass can match inside the rewritten form
(the basic names are blocked by the letter lookbehind). -/
theorem arcsin_repair : ∀ l : List Char,
    hasSubList ("arcsin".data ++ ['(']) l = true →
    hasSubList ('\\' :: ("arcsin".data ++ ['('])) (repairList l) = true := by
  intro l h
  have h1 := arc_survive ("arcsin".data ++ ['('])
    (by decide) (by decide) (by decide) none l h
  have h2 := fname_rewrite "arcsin".data (by decide) (by decide) (by decide) _ h1
  have h3 := fname_survive badBS "arccos".data ('\\' :: ("arcsin".data ++ ['(']))
    (by decide) (by decide) (by decide) (by decide) none _ h2
  have h4 := fname_survive badBS "arctan".data ('\\' :: ("arcsin".data ++ ['(']))
    (by decide) (by decide) (by decide) (by decide) none _ h3
  have h5 := fname_survive badBS "arcsec".data ('\\' :: ("arcsin".data ++ ['(']))
    (by decide) (by decide) (by decide) (by decide) none _ h4
  have h6 := fname_survive badBS "arccsc".data ('\\' :: ("arcsin".data ++ ['(']))
    (by decide) (by decide) (by decide) (by decide) none _ h5
  have h7 := fname_survive badBS "arccot".data ('\\' :: ("arcsin".data ++ ['(']))
    (by decide) (by decide) (by decide) (by decide) none _ h6
  have h8 := fname_survive badBSLetter "sin".data ('\\' :: ("arcsin".data ++ ['(']))
    (by decide) (by decide) (by decide) (by decide) none _ h7
  have h9 := fname_survive badBSLetter "cos".data ('\\' :: ("arcsin".data ++ ['(']))
    (by decide) (by decide) (by decide) (by decide) none _ h8
  have h10 := fname_survive badBSLetter "tan".data ('\\' :: ("arcsin".data ++ ['(']))
    (by decide) (by decide) (by decide) (by decide) none _ h9
  have h11 := fname_survive badBSLetter "ln".data ('\\' :: ("arcsin".data ++ ['(']))
    (by decide) (by decide) (by decide) (by decide) none _ h10
  have h12 := fname_survive badBSLetter "log".data ('\\' :: ("arcsin".data ++ ['(']))
    (by decide) (by decide) (by decide) (by decide) none _ h11
  simp only [repairList, invNames, basicNames, List.foldl_cons, List.foldl_nil]
  exact h12

/-- Claim C6: the function-name repair step of parse_latex_safely
rewrites a bare function name immediately followed by `(` into
control-word form (`arcsin(` becomes `\arcsin(` and `sin(` becomes
`\sin(`), rewrites the split compound forms `\arc\sin` through
`\arc\cot` into `\arcsin` through `\arccot`, and never rewrites a
shorter name embedded inside a longer one: every input containing
`arcsin(` yields an output containing `\arcsin(`, the embedded `sin(`
receiving no backslash of its own, because the inverse names are
repaired before the basic names and the basic-name pattern refuses a
match preceded by a letter or a backslash. -/
theorem repair_function_names :
    repairList "arcsin(x)".data = "\\arcsin(x)".data ∧
    repairList "sin(x)".data = "\\sin(x)".data ∧
    repairList "arcsin(x) + sin(y)".data = "\\arcsin(x) + \\sin(y)".data ∧
    hasSubList "\\sin(".data (repairList "arcsin(x)".data) = false ∧
    (∀ n ∈ arcNames, repairList ('\\' :: 'a' :: 'r' :: 'c' :: '\\' :: n)
      = '\\' :: 'a' :: 'r' :: 'c' :: n) ∧
    (∀ l : List Char, hasSubList "arcsin(".data l = true →
      hasSubList ('\\' :: "arcsin(".data) (repairList l) = true) := by
  refine ⟨by decide, by decide, by decide, by decide, by decide, ?_⟩
  intro l h
  exact arcsin_repair l h

/-- A concrete instance of the universal part of the repair claim. -/
theorem repair_function_names_witness :
    hasSubList "arcsin(".data "2*arcsin(x/2) - 1".data = true ∧
    hasSubList ('\\' :: "arcsin(".data) (repairList "2*arcsin(x/2) - 1".data) = true :=
  ⟨by decide, repair_function_names.2.2.2.2.2 "2*arcsin(x/2) - 1".data (by decide)⟩

end DailyIntegral





